import Mathlib

/-!
# goscanpdf: a verification development

Shallow embedding of `exitcodes.go` and `goscanpdf.go`.

* Exit codes and the final part of `main` (collecting the kept pages, the zero-pages gate,
  `pdfunite`, the `rsync` retry loop) are pure functions of the page store and of the outcomes
  of the external programs.
* `getLine` is a function on lists of characters.
* The blank-page heuristic of the worker is embedded with IEEE-754 binary64 arithmetic
  (round to nearest, ties to even) on rationals and 32-bit unsigned channel sums.
* The goroutines (status reader, results reader, workers, main flow) are step relations.
-/

namespace Goscanpdf

/-! ## exitcodes.go -/

/-- The type `ExitCode byte`; the value is used as number of LED flashes. -/
abbrev ExitCode := Nat

def ExitSuccess : ExitCode := 0
def ExitSystemError : ExitCode := 1
def ExitNetworkError : ExitCode := 2
def ExitNoScanner : ExitCode := 3
def ExitZeroPages : ExitCode := 4

/-! ## The page descriptor -/

/-- Modelled from the spec: the declaration of the type `page` is not part of the two source
files. The code uses its fields `PnmName` (the raw artifact path, `sourcePath` in the spec) and
`Keep` (the spec's `keep`, set to `true` on creation). Its method `PdfName()` (the spec's derived
output path) is a parameter `PdfName : page → String` of every definition that calls it. -/
structure page where
  PnmName : String
  Keep : Bool
deriving DecidableEq, Repr

/-- The results reader, `for scanimageOutScanner.Scan()` (goscanpdf.go 314-326), as far as the
page store is concerned: every line of the scanner's stdout appends
`&page{PnmName: line, Keep: true}` to `pages`. -/
def readResults : List String → List page → List page
  | [], pages => pages
  | line :: rest, pages => readResults rest (pages ++ [{ PnmName := line, Keep := true }])

/-- The worker's `page.Keep = false` (goscanpdf.go 395) through the pointer it received: the
descriptor at position `i` of the store is the one the pointer refers to. -/
def setDiscard (pages : List page) (i : Nat) : List page :=
  pages.modify (fun p => { p with Keep := false }) i

/-- The flag writes of the workers, in the order in which they happen. -/
def applyDiscards (pages : List page) (order : List Nat) : List page :=
  order.foldl setDiscard pages

/-! ## The end of `main`: collecting, the zero-pages gate, merging, uploading -/

/-- The loop `for _, page := range pages { if page.Keep { pdfpages = append(...) } }`
(goscanpdf.go 427-433); the second argument is `pdfpages` so far. -/
def collectPdfpages (PdfName : page → String) : List page → List String → List String
  | [], pdfpages => pdfpages
  | p :: rest, pdfpages =>
      if p.Keep then collectPdfpages PdfName rest (pdfpages ++ [PdfName p])
      else collectPdfpages PdfName rest pdfpages

/-- The loop `for try := 0; try < 3; try++` (goscanpdf.go 464-470). `rsync try` tells whether
the invocation number `try` (counted from 0) of the upload program succeeds; `err` is whether the
variable `err` is non-nil and `calls` counts the invocations made so far. The result is the final
`err` and the number of invocations. -/
def rsyncLoop (rsync : Nat → Bool) (try_ : Nat) (err : Bool) (calls : Nat) : Bool × Nat :=
  if try_ < 3 then
    if rsync try_ then (false, calls + 1)
    else rsyncLoop rsync (try_ + 1) true (calls + 1)
  else (err, calls)
termination_by 3 - try_

/-- The upload stage (goscanpdf.go 461-478): the retry loop, then `cleanExit` with
`ExitNetworkError` if `err != nil` and with `ExitSuccess` otherwise. It is entered with
`err == nil`, after a successful `pdfunite`. Returns the number of invocations of the upload
program and the exit status. -/
def upload (rsync : Nat → Bool) : Nat × ExitCode :=
  let r := rsyncLoop rsync 0 false 0
  (r.2, if r.1 then ExitNetworkError else ExitSuccess)

/-- External programs started and files removed by the end of `main`. -/
inductive Call where
  | pdfunite (args : List String)
  | remove (path : String)
  | rsync (file : String)
deriving DecidableEq, Repr

/-- What the end of `main` does: the calls it makes, in order, and the exit status. -/
structure Outcome where
  calls : List Call
  exit : ExitCode
deriving DecidableEq, Repr

/-- The main flow after `convertWorkers.Wait()` (goscanpdf.go 425-478). `pdfuniteOk args` tells
whether `pdfunite` succeeds on these arguments, `rsync` as in `rsyncLoop`. -/
def finalization (PdfName : page → String) (pages : List page) (outputFilename : String)
    (pdfuniteOk : List String → Bool) (rsync : Nat → Bool) : Outcome :=
  let pdfpages := collectPdfpages PdfName pages []
  if pdfpages.length = 0 then
    { calls := [], exit := ExitZeroPages }
  else
    let args := pdfpages ++ [outputFilename]
    if pdfuniteOk args then
      let up := upload rsync
      { calls := [Call.pdfunite args] ++ pdfpages.map Call.remove
                  ++ List.replicate up.1 (Call.rsync outputFilename),
        exit := up.2 }
    else
      { calls := [Call.pdfunite args], exit := ExitSystemError }

/-- Whether the document merger was started. -/
def Outcome.merged (o : Outcome) : Bool :=
  o.calls.any (fun c => match c with | Call.pdfunite _ => true | _ => false)

/-! ## `getLine` -/

/-- Go's `unicode.IsSpace`: the white space characters as defined by Unicode. -/
def IsSpace (c : Char) : Bool :=
  c = '\t' || c = '\n' || c.toNat = 0x0B || c.toNat = 0x0C || c = '\r' || c = ' '
    || c.toNat = 0x85 || c.toNat = 0xA0 || c.toNat = 0x1680
    || (0x2000 ≤ c.toNat && c.toNat ≤ 0x200A)
    || c.toNat = 0x2028 || c.toNat = 0x2029 || c.toNat = 0x202F || c.toNat = 0x205F
    || c.toNat = 0x3000

/-- Go's `strings.Split(s, "\n")`, reading `s` from the left; `cur` holds, reversed, the
characters of the piece being read. The result always has one piece more than `s` has
newlines. -/
def splitNewline : List Char → List Char → List (List Char)
  | [], cur => [cur.reverse]
  | c :: cs, cur =>
      if c = '\n' then cur.reverse :: splitNewline cs [] else splitNewline cs (c :: cur)

/-- The call `strings.Split(lines, "\n")`. -/
def Split (s : List Char) : List (List Char) := splitNewline s []

/-- Go's `strings.TrimSpace`: all leading and trailing white space removed. -/
def TrimSpace (s : List Char) : List Char :=
  ((s.dropWhile IsSpace).reverse.dropWhile IsSpace).reverse

/-- Go's `strings.HasPrefix`. -/
def HasPrefix (s pfx : List Char) : Bool := pfx.isPrefixOf s

/-- Go's `strings.TrimPrefix`: `s` without the leading `pfx`, and `s` itself if it does not start
with `pfx`. -/
def TrimPrefix (s pfx : List Char) : List Char :=
  if HasPrefix s pfx then s.drop pfx.length else s

/-- The loop of `getLine` (goscanpdf.go 63-69) over the pieces of the split. -/
def getLineLoop (pfx : List Char) : List (List Char) → List Char
  | [] => []
  | line :: rest =>
      let line := TrimSpace line
      if HasPrefix line pfx then TrimSpace (TrimPrefix line pfx)
      else getLineLoop pfx rest

/-- The function `getLine(lines string, prefix string) string` (goscanpdf.go 62-70): the contents
(without prefix) of the first line which starts with the given prefix. -/
def getLine (lines pfx : List Char) : List Char :=
  getLineLoop pfx (Split lines)

/-! ## The worker: binary64 arithmetic -/

/-- Rounding of a rational to an integer, to nearest and ties to even. -/
def roundHalfEven (x : ℚ) : ℤ :=
  if Int.fract x < 1 / 2 then ⌊x⌋
  else if 1 / 2 < Int.fract x then ⌊x⌋ + 1
  else if ⌊x⌋ % 2 = 0 then ⌊x⌋ else ⌊x⌋ + 1

/-- The exponent of the unit in the last place of a `float64` near `x > 0`: 52 binary places
below the leading bit of `x`, and `-1074` in the subnormal range. -/
def ulpExp (x : ℚ) : ℤ := max (Int.log 2 x - 52) (-1074)

/-- The `float64` (IEEE-754 binary64, round to nearest, ties to even) nearest to a rational
`x`, for the non-negative `x` below `2 ^ 1024` that occur in the worker (pixel counts, image
sizes, their ratios and products); it is how Go rounds a constant, a conversion from `int` and
the result of `+`, `*` and `/` on `float64`. -/
def roundF64 (x : ℚ) : ℚ :=
  if x ≤ 0 then 0 else roundHalfEven (x / 2 ^ ulpExp x) * 2 ^ ulpExp x

/-! ## The worker: the blank-page heuristic -/

/-- A decoded image (`image.Image`) whose bounds start at 0: `MaxX` and `MaxY` are
`Bounds().Max.X` and `Bounds().Max.Y`. `RGBA x y` is `some` of the red, green and blue values
of `At(x, y).RGBA()`, each a `uint32`, where the call returns, and `none` where it panics.
An image returns a colour at every position inside its bounds; outside them the colour and grey
images of the decoder the program registers (goscanpdf.go 6) panic. -/
structure Image where
  MaxX : Nat
  MaxY : Nat
  RGBA : Nat → Nat → Option (Nat × Nat × Nat)

/-- The assignment `border := int(0.03 * math.Min(float64(Max.X), float64(Max.Y)))`
(goscanpdf.go 353-358): the constant and both conversions are rounded to `float64`, so is the
product, and `int` truncates. -/
def border (MaxX MaxY : Nat) : Nat :=
  ⌊roundF64 (roundF64 (3 / 100) * min (roundF64 MaxX) (roundF64 MaxY))⌋₊

/-- The values of the loop variable of `for x := hi; x > lo; x--`, in the order of the loop. -/
def countDown (lo : Nat) : Nat → List Nat
  | 0 => []
  | x + 1 => if lo < x + 1 then (x + 1) :: countDown lo x else []

/-- The positions `(x, y)` at which the two nested loops (goscanpdf.go 363-364) call
`pnmimage.At`, in the order of the calls. -/
def sampled (MaxX MaxY : Nat) : List (Nat × Nat) :=
  (countDown (border MaxX MaxY) (MaxX - border MaxX MaxY)).flatMap
    (fun x => (countDown (border MaxX MaxY) (MaxY - border MaxX MaxY)).map (fun y => (x, y)))

/-- The condition `(r+g+b)/3 > 32768` (goscanpdf.go 366) on `uint32` values: the sum wraps at
`2 ^ 32` and `/` is the integer division. -/
def isBright (r g b : Nat) : Bool :=
  decide (32768 < (r + g + b) % 2 ^ 32 / 3)

/-- The two `float64` counters of the worker. -/
structure Counters where
  brightPixels : ℚ
  darkPixels : ℚ
deriving DecidableEq

/-- The body of the inner loop (goscanpdf.go 365-370): `brightPixels++` or `darkPixels++`. -/
def countPixel (c : Counters) (rgb : Nat × Nat × Nat) : Counters :=
  if isBright rgb.1 rgb.2.1 rgb.2.2 then
    { c with brightPixels := roundF64 (c.brightPixels + 1) }
  else
    { c with darkPixels := roundF64 (c.darkPixels + 1) }

/-- The two loops (goscanpdf.go 363-372) over the positions still to visit, from the counters
`c`: `none` if a call of `At` panics, which ends the goroutine and the process there. -/
def countPixelsFrom (img : Image) : List (Nat × Nat) → Counters → Option Counters
  | [], c => some c
  | p :: rest, c =>
      match img.RGBA p.1 p.2 with
      | none => none
      | some rgb => countPixelsFrom img rest (countPixel c rgb)

/-- The counters after the two loops (goscanpdf.go 360-372), `none` if a call of `At`
panics. -/
def countPixels (img : Image) : Option Counters :=
  countPixelsFrom img (sampled img.MaxX img.MaxY) { brightPixels := 0, darkPixels := 0 }

/-- The assignment `darkPixelRatio := darkPixels / (darkPixels + brightPixels)`
(goscanpdf.go 378) on `float64`; `none` is the NaN of `0 / 0`. -/
def darkPixelRatio (c : Counters) : Option ℚ :=
  if roundF64 (c.darkPixels + c.brightPixels) = 0 then none
  else some (roundF64 (c.darkPixels / roundF64 (c.darkPixels + c.brightPixels)))

/-- The condition `darkPixelRatio > 0.0003` (goscanpdf.go 382); a comparison with NaN is
false. -/
def ratioAboveThreshold (c : Counters) : Bool :=
  match darkPixelRatio c with
  | none => false
  | some r => decide (roundF64 (3 / 10000) < r)

/-- What one pass of the worker's loop body does to its page: whether `gm convert` was run, the
`Keep` flag of the descriptor afterwards, the exit code if `cleanExit` was called, and whether
the pass ended in a panic of `At` (then nothing after the loops is reached). -/
structure PageResult where
  gmCalled : Bool
  Keep : Bool
  exit : Option ExitCode
  panicked : Bool
deriving DecidableEq, Repr

/-- The worker after the counting (goscanpdf.go 376-396): the compressor is run if the ratio is
above the threshold, and its failure is fatal; otherwise `page.Keep = false`. `gmOk` tells whether
`gm convert` succeeds. -/
def decidePage (c : Counters) (gmOk : Bool) : PageResult :=
  if ratioAboveThreshold c then
    if gmOk then { gmCalled := true, Keep := true, exit := none, panicked := false }
    else { gmCalled := true, Keep := true, exit := some ExitSystemError, panicked := false }
  else { gmCalled := false, Keep := false, exit := none, panicked := false }

/-- One pass of the worker's loop body (goscanpdf.go 343-398) on a page created with
`Keep: true`. `opened` tells whether `os.Open` succeeds and `decoded` is the image returned by
`image.Decode`, `none` if it fails. If a call of `At` panics, the pass ends in the loops. -/
def convertPage (opened : Bool) (decoded : Option Image) (gmOk : Bool) : PageResult :=
  if opened then
    match decoded with
    | none =>
        { gmCalled := false, Keep := true, exit := some ExitSystemError, panicked := false }
    | some img =>
        match countPixels img with
        | none => { gmCalled := false, Keep := true, exit := none, panicked := true }
        | some c => decidePage c gmOk
  else { gmCalled := false, Keep := true, exit := some ExitSystemError, panicked := false }

/-! ## The handshake between the status reader and the results reader -/

/-- Where the status reader goroutine (goscanpdf.go 275-299) stands: at `Scan()`, or blocked at
`<-scannextpage` after it has written the acknowledgement. -/
inductive StatusReader where
  | scanning
  | awaitingAdvance
deriving DecidableEq, Repr

/-- Where the results reader goroutine (goscanpdf.go 310-327) stands: at `Scan()`, blocked at
`nextJob <- page`, or blocked at `scannextpage <- true`. -/
inductive ResultsReader where
  | scanning
  | submitting
  | advancing
deriving DecidableEq, Repr

/-- The state of the driver: the two readers, the page store, the workers blocked at
`range nextJob` (`idle`) and those working on a page (`busy`), and three counters that the code
does not have: the acknowledgements written to `scanimageIn`, the jobs received by workers and
the values passed over `scannextpage`. `exit` is set once `cleanExit` was called. -/
structure Driver where
  status : StatusReader
  results : ResultsReader
  pages : List page
  idle : Nat
  busy : Nat
  acks : Nat
  accepted : Nat
  advances : Nat
  exit : Option ExitCode
deriving DecidableEq, Repr

/-- What can happen next. `nextJob` and `scannextpage` are unbuffered (goscanpdf.go 111-112), so
a send and the matching receive are one event. For a line of stderr, `noDevice` and `prompt` are
the two `strings.Contains` tests of the status reader. -/
inductive DriverEvent where
  | stderrLine (noDevice : Bool) (prompt : Bool)
  | stdoutLine (name : String)
  | receive
  | advance
  | workerBack
deriving DecidableEq, Repr

/-- The driver after `make(chan ...)` and the start of `convertCores` workers. -/
def Driver.init (convertCores : Nat) : Driver :=
  { status := StatusReader.scanning, results := ResultsReader.scanning, pages := [],
    idle := convertCores, busy := 0, acks := 0, accepted := 0, advances := 0, exit := none }

/-- One event of the driver; `none` if the event cannot happen in this state. -/
def Driver.step (s : Driver) (e : DriverEvent) : Option Driver :=
  if s.exit.isSome then none
  else
    match e with
    | DriverEvent.stderrLine noDevice prompt =>
        match s.status with
        | StatusReader.scanning =>
            if noDevice then some { s with exit := some ExitNoScanner }
            else if prompt then
              some { s with acks := s.acks + 1, status := StatusReader.awaitingAdvance }
            else some s
        | StatusReader.awaitingAdvance => none
    | DriverEvent.stdoutLine name =>
        match s.results with
        | ResultsReader.scanning =>
            some { s with pages := s.pages ++ [{ PnmName := name, Keep := true }],
                          results := ResultsReader.submitting }
        | _ => none
    | DriverEvent.receive =>
        match s.results with
        | ResultsReader.submitting =>
            if 0 < s.idle then
              some { s with idle := s.idle - 1, busy := s.busy + 1,
                            accepted := s.accepted + 1, results := ResultsReader.advancing }
            else none
        | _ => none
    | DriverEvent.advance =>
        match s.results, s.status with
        | ResultsReader.advancing, StatusReader.awaitingAdvance =>
            some { s with advances := s.advances + 1, results := ResultsReader.scanning,
                          status := StatusReader.scanning }
        | _, _ => none
    | DriverEvent.workerBack =>
        if 0 < s.busy then some { s with busy := s.busy - 1, idle := s.idle + 1 } else none

/-- A sequence of events from a state. -/
def Driver.run (s : Driver) : List DriverEvent → Option Driver
  | [] => some s
  | e :: es =>
      match s.step e with
      | none => none
      | some t => t.run es

/-- The bookkeeping of the driver: how the counters relate to where the readers stand. -/
def Driver.Consistent (s : Driver) : Prop :=
  s.accepted = s.advances + (if s.results = ResultsReader.advancing then 1 else 0)
  ∧ s.acks = s.advances + (if s.status = StatusReader.awaitingAdvance then 1 else 0)
  ∧ s.pages.length = s.accepted + (if s.results = ResultsReader.submitting then 1 else 0)

/-! ## The worker pool and the main flow -/

/-- Where the main flow stands after the workers were started: in `scanimage.Wait()`, in
`convertWorkers.Wait()` after `close(nextJob)`, or past the end of `main`. -/
inductive MainFlow where
  | waitScanimage
  | waitWorkers
  | finished
deriving DecidableEq, Repr

/-- The workers and the main flow (goscanpdf.go 331-451). `idle` workers are blocked at
`range nextJob`, `busy` holds for each working worker the position of its page in the store,
`failed` holds for each worker that called `cleanExit` the exit code it passed, and `waitGroup`
is the counter of `convertWorkers`. `merged` tells whether `pdfunite` was started and `exit` is
the status with which the process has ended. -/
structure Pool where
  idle : Nat
  busy : List Nat
  failed : List ExitCode
  waitGroup : Nat
  pages : List page
  closed : Bool
  main : MainFlow
  merged : Bool
  exit : Option ExitCode

/-- What can happen next in the pool. `job`: the results reader appends a page and a worker
receives it. `finish`: the worker of the page at position `i` runs the loop body, with the
outcomes of `os.Open`, `image.Decode` and `gm convert`; a pass in which `At` panics ends the
process at once, outside `cleanExit`, and is not an event of this machine. `osExit`: a
`cleanExit` reaches `os.Exit`. `close`: `scanimage.Wait()` returns and `close(nextJob)` runs. `quit`: an idle
worker leaves the closed `range` and calls `convertWorkers.Done()`. `finalize`:
`convertWorkers.Wait()` returns and the end of `main` runs. -/
inductive PoolEvent where
  | job (name : String)
  | finish (i : Nat) (opened : Bool) (decoded : Option Image) (gmOk : Bool)
  | osExit
  | close
  | quit
  | finalize (outputFilename : String) (pdfuniteOk : List String → Bool) (rsync : Nat → Bool)

/-- The pool after `convertWorkers.Add(1)` and `go func()` for each of the `convertCores`
workers (goscanpdf.go 331-335). -/
def Pool.init (convertCores : Nat) : Pool :=
  { idle := convertCores, busy := [], failed := [], waitGroup := convertCores, pages := [],
    closed := false, main := MainFlow.waitScanimage, merged := false, exit := none }

/-- One event of the pool; `none` if the event cannot happen in this state. -/
def Pool.step (PdfName : page → String) (s : Pool) (e : PoolEvent) : Option Pool :=
  if s.exit.isSome then none
  else
    match e with
    | PoolEvent.job name =>
        if s.closed = false ∧ 0 < s.idle then
          some { s with pages := s.pages ++ [{ PnmName := name, Keep := true }],
                        idle := s.idle - 1, busy := s.pages.length :: s.busy }
        else none
    | PoolEvent.finish i opened decoded gmOk =>
        if i ∈ s.busy ∧ (convertPage opened decoded gmOk).panicked = false then
          match (convertPage opened decoded gmOk).exit with
          | some code => some { s with busy := s.busy.erase i, failed := code :: s.failed }
          | none =>
              some { s with busy := s.busy.erase i, idle := s.idle + 1,
                            pages := if (convertPage opened decoded gmOk).Keep then s.pages
                                     else setDiscard s.pages i }
        else none
    | PoolEvent.osExit =>
        match s.failed with
        | code :: _ => some { s with exit := some code }
        | [] => none
    | PoolEvent.close =>
        match s.main with
        | MainFlow.waitScanimage => some { s with closed := true, main := MainFlow.waitWorkers }
        | _ => none
    | PoolEvent.quit =>
        if s.closed = true ∧ 0 < s.idle then
          some { s with idle := s.idle - 1, waitGroup := s.waitGroup - 1 }
        else none
    | PoolEvent.finalize outputFilename pdfuniteOk rsync =>
        match s.main with
        | MainFlow.waitWorkers =>
            if s.waitGroup = 0 then
              some { s with
                main := MainFlow.finished,
                merged := (finalization PdfName s.pages outputFilename pdfuniteOk rsync).merged,
                exit := some (finalization PdfName s.pages outputFilename pdfuniteOk rsync).exit }
            else none
        | _ => none

/-- A sequence of events from a state. -/
def Pool.run (PdfName : page → String) (s : Pool) : List PoolEvent → Option Pool
  | [] => some s
  | e :: es =>
      match Pool.step PdfName s e with
      | none => none
      | some t => Pool.run PdfName t es

/-- The bookkeeping of the pool: the counter of the wait group is the number of workers that
have not called `Done()`, every failed worker passed `ExitSystemError`, and the merger and any
other exit status come only after the main flow has passed `convertWorkers.Wait()`. -/
def Pool.Consistent (s : Pool) : Prop :=
  s.waitGroup = s.idle + s.busy.length + s.failed.length
  ∧ (∀ code ∈ s.failed, code = ExitSystemError)
  ∧ (s.main = MainFlow.finished → s.waitGroup = 0)
  ∧ (s.merged = true → s.main = MainFlow.finished)
  ∧ (∀ code, s.exit = some code → code = ExitSystemError ∨ s.main = MainFlow.finished)

/-! # Properties -/

/-! ## The finalization gate -/

theorem collectPdfpages_eq (PdfName : page → String) (pages : List page) (pdfpages : List String) :
    collectPdfpages PdfName pages pdfpages
      = pdfpages ++ (pages.filter (fun p => p.Keep)).map PdfName := by
  induction pages generalizing pdfpages with
  | nil => simp [collectPdfpages]
  | cons p rest ih =>
    by_cases hk : p.Keep = true
    · simp [collectPdfpages, hk, ih]
    · simp [collectPdfpages, hk, ih]

theorem readResults_eq (lines : List String) (pages : List page) :
    readResults lines pages
      = pages ++ lines.map (fun l => { PnmName := l, Keep := true }) := by
  induction lines generalizing pages with
  | nil => simp [readResults]
  | cons l rest ih => simp [readResults, ih]

theorem setDiscard_comm (pages : List page) (i j : Nat) :
    setDiscard (setDiscard pages i) j = setDiscard (setDiscard pages j) i := by
  apply List.ext_getElem?
  intro k
  simp only [setDiscard, List.getElem?_modify]
  cases pages[k]? with
  | none => simp
  | some p => by_cases hi : i = k <;> by_cases hj : j = k <;> simp [hi, hj]

theorem applyDiscards_perm (pages : List page) {order₁ order₂ : List Nat}
    (h : order₁.Perm order₂) : applyDiscards pages order₁ = applyDiscards pages order₂ :=
  List.Perm.foldl_eq' h (fun x _ y _ z => setDiscard_comm z x y) pages

/-- C1. The list of paths handed to the merger is `map PdfName (filter Keep pages)`: the output
paths of exactly the kept descriptors, in store order. Two orders in which the workers write
their `Keep = false` flags that are permutations of each other give the same list, and the store
`[P1, P2, P3]` with flags `[false, true, true]` gives `[PdfName P2, PdfName P3]`. -/
theorem finalization_gate_order_and_filter (PdfName : page → String) (pages : List page) :
    collectPdfpages PdfName pages [] = (pages.filter (fun p => p.Keep)).map PdfName
    ∧ (∀ order₁ order₂ : List Nat, order₁.Perm order₂ →
        collectPdfpages PdfName (applyDiscards pages order₁) []
          = collectPdfpages PdfName (applyDiscards pages order₂) [])
    ∧ (∀ P1 P2 P3 : String,
        collectPdfpages PdfName
            (applyDiscards (readResults [P1, P2, P3] []) [0]) []
          = [PdfName { PnmName := P2, Keep := true }, PdfName { PnmName := P3, Keep := true }]) := by
  refine ⟨?_, ?_, ?_⟩
  · simp [collectPdfpages_eq]
  · intro order₁ order₂ h
    rw [applyDiscards_perm pages h]
  · intro P1 P2 P3
    simp [readResults, applyDiscards, setDiscard, collectPdfpages, List.modify,
      List.modifyTailIdx, List.modifyHead]

/-- C1 at a concrete store: three scanned pages, the first and the third found blank by workers
finishing in either order. -/
theorem finalization_gate_order_and_filter_witness :
    [2, 0].Perm [0, 2]
    ∧ collectPdfpages (fun p => p.PnmName ++ ".pdf")
        (applyDiscards (readResults ["a.pnm", "b.pnm", "c.pnm"] []) [2, 0]) []
      = collectPdfpages (fun p => p.PnmName ++ ".pdf")
        (applyDiscards (readResults ["a.pnm", "b.pnm", "c.pnm"] []) [0, 2]) [] :=
  ⟨List.Perm.swap 0 2 [],
   (finalization_gate_order_and_filter (fun p => p.PnmName ++ ".pdf")
      (readResults ["a.pnm", "b.pnm", "c.pnm"] [])).2.1 [2, 0] [0, 2] (List.Perm.swap 0 2 [])⟩

theorem merged_nil_calls : Outcome.merged { calls := [], exit := ExitZeroPages } = false := rfl

/-- C5. If no descriptor of the store has `Keep = true` (the empty store included), the end of
`main` exits with `ExitZeroPages`, which is 4 and differs from `ExitSystemError`, and makes no
call at all, so the merger is not started. If some descriptor has `Keep = true`, the exit status
is not `ExitZeroPages` and the first call is `pdfunite` with the non-empty list of kept output
paths followed by the output file name. -/
theorem zero_pages_outcome (PdfName : page → String) (pages : List page)
    (outputFilename : String) (pdfuniteOk : List String → Bool) (rsync : Nat → Bool) :
    ((∀ p ∈ pages, p.Keep = false) →
        (finalization PdfName pages outputFilename pdfuniteOk rsync).exit = ExitZeroPages
        ∧ ExitZeroPages = 4 ∧ ExitZeroPages ≠ ExitSystemError
        ∧ (finalization PdfName pages outputFilename pdfuniteOk rsync).calls = []
        ∧ (finalization PdfName pages outputFilename pdfuniteOk rsync).merged = false)
    ∧ ((∃ p ∈ pages, p.Keep = true) →
        (finalization PdfName pages outputFilename pdfuniteOk rsync).exit ≠ ExitZeroPages
        ∧ (pages.filter (fun p => p.Keep)).map PdfName ≠ []
        ∧ (finalization PdfName pages outputFilename pdfuniteOk rsync).calls.head?
            = some (Call.pdfunite
                ((pages.filter (fun p => p.Keep)).map PdfName ++ [outputFilename]))
        ∧ (finalization PdfName pages outputFilename pdfuniteOk rsync).merged = true) := by
  constructor
  · intro h
    have hnil : (pages.filter (fun p => p.Keep)) = [] := by
      rw [List.filter_eq_nil_iff]
      intro p hp
      simp [h p hp]
    simp [finalization, collectPdfpages_eq, hnil, ExitZeroPages, ExitSystemError, Outcome.merged]
  · rintro ⟨p, hp, hk⟩
    have hne : (pages.filter (fun p => p.Keep)) ≠ [] := by
      intro h0
      rw [List.filter_eq_nil_iff] at h0
      exact h0 p hp hk
    have hne2 : (pages.filter (fun p => p.Keep)).map PdfName ≠ [] := by
      simpa using hne
    have hlen : ¬ ((pages.filter (fun p => p.Keep)).map PdfName).length = 0 := by
      intro h0
      exact hne2 (List.length_eq_zero.mp h0)
    refine ⟨?_, hne2, ?_, ?_⟩
    · simp only [finalization, collectPdfpages_eq, List.nil_append, hlen, if_false]
      by_cases hu : pdfuniteOk ((pages.filter (fun p => p.Keep)).map PdfName ++ [outputFilename])
          = true
      · simp only [hu, if_true, upload]
        split <;> simp [ExitNetworkError, ExitSuccess, ExitZeroPages]
      · simp [hu, ExitSystemError, ExitZeroPages]
    · simp only [finalization, collectPdfpages_eq, List.nil_append, hlen, if_false]
      split <;> simp
    · simp only [finalization, collectPdfpages_eq, List.nil_append, hlen, if_false]
      split <;> simp [Outcome.merged]

/-- C5 at concrete stores: two blank pages, and one blank page followed by a kept one. -/
theorem zero_pages_outcome_witness :
    (∀ p ∈ [({ PnmName := "a.pnm", Keep := false } : page), { PnmName := "b.pnm", Keep := false }],
        p.Keep = false)
    ∧ (finalization (fun p => p.PnmName ++ ".pdf")
        [{ PnmName := "a.pnm", Keep := false }, { PnmName := "b.pnm", Keep := false }]
        "out.pdf" (fun _ => true) (fun _ => true)).exit = ExitZeroPages := by
  have h : ∀ p ∈ [({ PnmName := "a.pnm", Keep := false } : page),
      { PnmName := "b.pnm", Keep := false }], p.Keep = false := by
    intro p hp
    simp at hp
    rcases hp with rfl | rfl <;> rfl
  exact ⟨h, ((zero_pages_outcome (fun p => p.PnmName ++ ".pdf")
      [{ PnmName := "a.pnm", Keep := false }, { PnmName := "b.pnm", Keep := false }]
      "out.pdf" (fun _ => true) (fun _ => true)).1 h).1⟩

/-! ## The upload retry loop -/

theorem rsyncLoop_eq (rsync : Nat → Bool) :
    rsyncLoop rsync 0 false 0
      = if rsync 0 then (false, 1) else if rsync 1 then (false, 2)
        else if rsync 2 then (false, 3) else (true, 3) := by
  rw [rsyncLoop]
  by_cases h0 : rsync 0 = true
  · simp [h0]
  · rw [rsyncLoop]
    by_cases h1 : rsync 1 = true
    · simp [h0, h1]
    · rw [rsyncLoop]
      by_cases h2 : rsync 2 = true
      · simp [h0, h1, h2]
      · rw [rsyncLoop]
        simp [h0, h1, h2]

/-- C6. The upload program is invoked `min 3 k` times, where `k` is the 1-based index of the first
successful attempt, and 3 times if none of the first three attempts succeeds; the exit status is
`ExitSuccess` (0) iff one of the first three attempts succeeds and `ExitNetworkError` (2) iff
none does. -/
theorem bounded_upload_retry (rsync : Nat → Bool) :
    (∀ k : Nat, 1 ≤ k → rsync (k - 1) = true → (∀ j, j < k - 1 → rsync j = false) →
        (upload rsync).1 = min 3 k)
    ∧ ((∀ j, j < 3 → rsync j = false) → (upload rsync).1 = 3)
    ∧ ((upload rsync).2 = ExitSuccess ↔ ∃ j, j < 3 ∧ rsync j = true)
    ∧ ((upload rsync).2 = ExitNetworkError ↔ ∀ j, j < 3 → rsync j = false)
    ∧ ExitSuccess = 0 ∧ ExitNetworkError = 2 := by
  refine ⟨?_, ?_, ?_, ?_, rfl, rfl⟩
  · intro k hk hs hf
    simp only [upload, rsyncLoop_eq]
    obtain ⟨m, rfl⟩ : ∃ m, k = m + 1 := ⟨k - 1, by omega⟩
    simp only [Nat.add_sub_cancel] at hs hf
    match m, hs, hf with
    | 0, hs, _ => simp [hs]
    | 1, hs, hf => simp [hs, hf 0 (by omega)]
    | 2, hs, hf => simp [hs, hf 0 (by omega), hf 1 (by omega)]
    | m + 3, _, hf =>
      have h3 : min 3 (m + 3 + 1) = 3 := by omega
      simp [hf 0 (by omega), hf 1 (by omega), hf 2 (by omega), h3]
  · intro hf
    simp [upload, rsyncLoop_eq, hf 0 (by omega), hf 1 (by omega), hf 2 (by omega)]
  · simp only [upload, rsyncLoop_eq]
    constructor
    · intro h
      by_cases h0 : rsync 0 = true
      · exact ⟨0, by omega, h0⟩
      · by_cases h1 : rsync 1 = true
        · exact ⟨1, by omega, h1⟩
        · by_cases h2 : rsync 2 = true
          · exact ⟨2, by omega, h2⟩
          · simp [h0, h1, h2, ExitNetworkError, ExitSuccess] at h
    · rintro ⟨j, hj, hs⟩
      have hj3 : j = 0 ∨ j = 1 ∨ j = 2 := by omega
      rcases hj3 with rfl | rfl | rfl
      · simp [hs]
      · by_cases h0 : rsync 0 = true <;> simp [h0, hs]
      · by_cases h0 : rsync 0 = true <;> by_cases h1 : rsync 1 = true <;> simp [h0, h1, hs]
  · simp only [upload, rsyncLoop_eq]
    constructor
    · intro h j hj
      have hj3 : j = 0 ∨ j = 1 ∨ j = 2 := by omega
      by_cases h0 : rsync 0 = true
      · simp [h0, ExitNetworkError, ExitSuccess] at h
      · by_cases h1 : rsync 1 = true
        · simp [h0, h1, ExitNetworkError, ExitSuccess] at h
        · by_cases h2 : rsync 2 = true
          · simp [h0, h1, h2, ExitNetworkError, ExitSuccess] at h
          · rcases hj3 with rfl | rfl | rfl
            · simpa using h0
            · simpa using h1
            · simpa using h2
    · intro hf
      simp [hf 0 (by omega), hf 1 (by omega), hf 2 (by omega)]

/-- C6 at concrete outcomes: the first attempt fails and the second succeeds, which gives two
invocations; and no attempt ever succeeds, which gives three. -/
theorem bounded_upload_retry_witness :
    (upload (fun j => decide (j = 1))).1 = min 3 2
    ∧ (upload (fun _ => false)).1 = 3 :=
  ⟨(bounded_upload_retry (fun j => decide (j = 1))).1 2 (by decide) (by decide)
      (by intro j hj; have h0 : j = 0 := by omega
          subst h0; decide),
   (bounded_upload_retry (fun _ => false)).2.1 (fun _ _ => rfl)⟩

/-! ## `getLine` -/

theorem splitNewline_append (a b cur : List Char) :
    splitNewline (a ++ '\n' :: b) cur = splitNewline a cur ++ splitNewline b [] := by
  induction a generalizing cur with
  | nil => simp [splitNewline]
  | cons c cs ih =>
    by_cases hc : c = '\n'
    · simp [splitNewline, hc, ih]
    · simp [splitNewline, hc, ih]

theorem getLineLoop_skip (pfx : List Char) (before rest : List (List Char))
    (h : ∀ l ∈ before, HasPrefix (TrimSpace l) pfx = false) :
    getLineLoop pfx (before ++ rest) = getLineLoop pfx rest := by
  induction before with
  | nil => rfl
  | cons l ls ih =>
    have hl : HasPrefix (TrimSpace l) pfx = false := h l (List.mem_cons_self _ _)
    have hls : ∀ l' ∈ ls, HasPrefix (TrimSpace l') pfx = false :=
      fun l' hl' => h l' (List.mem_cons_of_mem _ hl')
    simp [getLineLoop, hl, ih hls]

theorem getLineLoop_first (pfx : List Char) (ls : List (List Char))
    (h : ∃ l ∈ ls, HasPrefix (TrimSpace l) pfx = true) :
    ∃ before l after, ls = before ++ l :: after
      ∧ (∀ l' ∈ before, HasPrefix (TrimSpace l') pfx = false)
      ∧ HasPrefix (TrimSpace l) pfx = true := by
  induction ls with
  | nil => simp at h
  | cons a rest ih =>
    by_cases ha : HasPrefix (TrimSpace a) pfx = true
    · exact ⟨[], a, rest, rfl, by simp, ha⟩
    · have ha' : HasPrefix (TrimSpace a) pfx = false := by simpa using ha
      obtain ⟨l, hl, hm⟩ := h
      have hl' : l ∈ rest := by
        rcases List.mem_cons.mp hl with rfl | hr
        · exact absurd hm ha
        · exact hr
      obtain ⟨before, m, after, he, hb, hmm⟩ := ih ⟨l, hl', hm⟩
      refine ⟨a :: before, m, after, by simp [he], ?_, hmm⟩
      intro l' hl'
      rcases List.mem_cons.mp hl' with rfl | hr
      · exact ha'
      · exact hb l' hr

theorem hasPrefix_split (s pfx : List Char) (h : HasPrefix s pfx = true) :
    ∃ rest, s = pfx ++ rest ∧ TrimPrefix s pfx = rest := by
  have hp : pfx <+: s := List.isPrefixOf_iff_prefix.mp h
  obtain ⟨rest, hr⟩ := hp
  refine ⟨rest, hr.symm, ?_⟩
  rw [TrimPrefix, if_pos h, ← hr, List.drop_left]

/-- C7. `getLine` returns the contents, without the leading `pfx`, of the first line that starts
with `pfx`: if some line of `lines`, trimmed, starts with `pfx`, then the pieces of the split are
`before ++ l :: after` where no line of `before` matches, the trimmed `l` is `pfx ++ rest` and the
result is `rest` trimmed; if no line matches, the result is the empty string; and whatever text
follows a matching line, after a newline, does not change the result. -/
theorem getLine_first_matching_line (lines pfx : List Char) :
    ((∃ l ∈ Split lines, HasPrefix (TrimSpace l) pfx = true) →
        ∃ before l after rest, Split lines = before ++ l :: after
          ∧ (∀ l' ∈ before, HasPrefix (TrimSpace l') pfx = false)
          ∧ TrimSpace l = pfx ++ rest
          ∧ getLine lines pfx = TrimSpace rest)
    ∧ ((∀ l ∈ Split lines, HasPrefix (TrimSpace l) pfx = false) → getLine lines pfx = [])
    ∧ ((∃ l ∈ Split lines, HasPrefix (TrimSpace l) pfx = true) →
        ∀ later : List Char, getLine (lines ++ '\n' :: later) pfx = getLine lines pfx) := by
  refine ⟨?_, ?_, ?_⟩
  · intro h
    obtain ⟨before, l, after, he, hb, hm⟩ := getLineLoop_first pfx (Split lines) h
    obtain ⟨rest, hr, ht⟩ := hasPrefix_split (TrimSpace l) pfx hm
    refine ⟨before, l, after, rest, he, hb, hr, ?_⟩
    rw [getLine, he, getLineLoop_skip pfx before (l :: after) hb]
    simp [getLineLoop, hm, ht]
  · intro h
    have := getLineLoop_skip pfx (Split lines) [] h
    simpa [getLine, getLineLoop] using this
  · intro h later
    obtain ⟨before, l, after, he, hb, hm⟩ := getLineLoop_first pfx (Split lines) h
    have hs : Split (lines ++ '\n' :: later) = Split lines ++ Split later := by
      simp [Split, splitNewline_append]
    rw [getLine, getLine, hs, he]
    simp only [List.append_assoc, List.cons_append]
    rw [getLineLoop_skip pfx before _ hb, getLineLoop_skip pfx before _ hb]
    simp [getLineLoop, hm]

/-- C7 on an excerpt of the output of `ssh -G`: the line `hostname example.org` is the first one
that starts with `hostname`. -/
theorem getLine_first_matching_line_witness :
    (∃ l ∈ Split "user scan\n hostname example.org \nport 22".toList,
        HasPrefix (TrimSpace l) "hostname".toList = true)
    ∧ ∀ later : List Char,
        getLine ("user scan\n hostname example.org \nport 22".toList ++ '\n' :: later)
            "hostname".toList
          = getLine "user scan\n hostname example.org \nport 22".toList "hostname".toList :=
  have h : ∃ l ∈ Split "user scan\n hostname example.org \nport 22".toList,
      HasPrefix (TrimSpace l) "hostname".toList = true :=
    ⟨" hostname example.org ".toList, by decide, by decide⟩
  ⟨h, (getLine_first_matching_line _ _).2.2 h⟩

/-! ## binary64 rounding -/

theorem floor_le_roundHalfEven (x : ℚ) : ⌊x⌋ ≤ roundHalfEven x := by
  unfold roundHalfEven
  split_ifs <;> omega

theorem roundHalfEven_le_floor_add_one (x : ℚ) : roundHalfEven x ≤ ⌊x⌋ + 1 := by
  unfold roundHalfEven
  split_ifs <;> omega

theorem roundHalfEven_intCast (n : ℤ) : roundHalfEven (n : ℚ) = n := by
  simp [roundHalfEven]

theorem roundHalfEven_mono {x y : ℚ} (h : x ≤ y) : roundHalfEven x ≤ roundHalfEven y := by
  have hf : ⌊x⌋ ≤ ⌊y⌋ := Int.floor_mono h
  rcases lt_or_eq_of_le hf with hlt | heq
  · calc roundHalfEven x ≤ ⌊x⌋ + 1 := roundHalfEven_le_floor_add_one x
      _ ≤ ⌊y⌋ := hlt
      _ ≤ roundHalfEven y := floor_le_roundHalfEven y
  · have hfr : Int.fract x ≤ Int.fract y := by
      unfold Int.fract
      rw [heq]
      linarith
    unfold roundHalfEven
    rw [heq]
    split_ifs <;> first | omega | (exfalso; linarith)

theorem roundHalfEven_of_lt_half {x : ℚ} {n : ℤ} (h1 : (n : ℚ) ≤ x) (h2 : x < n + 1 / 2) :
    roundHalfEven x = n := by
  have hfl : ⌊x⌋ = n := by
    rw [Int.floor_eq_iff]
    constructor <;> linarith
  have hfr : Int.fract x < 1 / 2 := by
    unfold Int.fract
    rw [hfl]
    linarith
  simp only [roundHalfEven, hfr, hfl, if_true]

theorem roundHalfEven_of_gt_half {x : ℚ} {n : ℤ} (h1 : (n : ℚ) + 1 / 2 < x) (h2 : x < n + 1) :
    roundHalfEven x = n + 1 := by
  have hfl : ⌊x⌋ = n := by
    rw [Int.floor_eq_iff]
    constructor <;> linarith
  have hfr : 1 / 2 < Int.fract x := by
    unfold Int.fract
    rw [hfl]
    linarith
  have hfr' : ¬ Int.fract x < 1 / 2 := by linarith
  simp only [roundHalfEven, hfr, hfr', hfl, if_true, if_false]

theorem roundHalfEven_tie {n : ℤ} : roundHalfEven ((n : ℚ) + 1 / 2)
    = if n % 2 = 0 then n else n + 1 := by
  have hfl : ⌊(n : ℚ) + 1 / 2⌋ = n := by
    rw [Int.floor_eq_iff]
    constructor <;> linarith
  have hfr : Int.fract ((n : ℚ) + 1 / 2) = 1 / 2 := by
    unfold Int.fract
    rw [hfl]
    ring
  simp only [roundHalfEven, hfr, hfl, lt_irrefl, if_false]

theorem log_eq_of_binade {x : ℚ} {k : ℤ} (h1 : (2 : ℚ) ^ k ≤ x) (h2 : x < (2 : ℚ) ^ (k + 1)) :
    Int.log 2 x = k := by
  have hx : 0 < x := lt_of_lt_of_le (by positivity) h1
  have a : k ≤ Int.log 2 x := by
    rw [← Int.zpow_le_iff_le_log (by norm_num) hx]
    simpa using h1
  have b : Int.log 2 x < k + 1 := by
    rw [← Int.lt_zpow_iff_log_lt (by norm_num) hx]
    simpa using h2
  omega

theorem zpow_log_le {x : ℚ} (hx : 0 < x) : (2 : ℚ) ^ Int.log 2 x ≤ x := by
  simpa using Int.zpow_log_le_self (b := 2) (by norm_num) hx

theorem lt_zpow_log_succ (x : ℚ) : x < (2 : ℚ) ^ (Int.log 2 x + 1) := by
  simpa using Int.lt_zpow_succ_log_self (b := 2) (by norm_num) x

theorem ulpExp_ge (x : ℚ) : -1074 ≤ ulpExp x := le_max_right _ _

theorem log_sub_le_ulpExp (x : ℚ) : Int.log 2 x - 52 ≤ ulpExp x := le_max_left _ _

theorem ulpExp_mono {x y : ℚ} (hx : 0 < x) (h : x ≤ y) : ulpExp x ≤ ulpExp y := by
  have := Int.log_mono_right (b := 2) hx h
  exact max_le_max (by omega) le_rfl

theorem ulpExp_of_binade {x : ℚ} {k : ℤ} (h1 : (2 : ℚ) ^ k ≤ x) (h2 : x < (2 : ℚ) ^ (k + 1))
    (hk : -1022 ≤ k) : ulpExp x = k - 52 := by
  rw [ulpExp, log_eq_of_binade h1 h2]
  exact max_eq_left (by omega)

theorem roundF64_eq {x : ℚ} {k : ℤ} (h1 : (2 : ℚ) ^ k ≤ x) (h2 : x < (2 : ℚ) ^ (k + 1))
    (hk : -1022 ≤ k) :
    roundF64 x = roundHalfEven (x / 2 ^ (k - 52)) * 2 ^ (k - 52) := by
  have hx : 0 < x := lt_of_lt_of_le (by positivity) h1
  rw [roundF64, if_neg (not_le.mpr hx), ulpExp_of_binade h1 h2 hk]

theorem roundHalfEven_nonneg {x : ℚ} (hx : 0 ≤ x) : 0 ≤ roundHalfEven x := by
  have := roundHalfEven_mono hx
  have e : roundHalfEven (0 : ℚ) = 0 := by
    have := roundHalfEven_intCast 0
    simpa using this
  omega

theorem roundF64_nonneg (x : ℚ) : 0 ≤ roundF64 x := by
  unfold roundF64
  split_ifs with h
  · exact le_rfl
  · have hx : 0 < x := not_le.mp h
    have h0 : (0 : ℚ) ≤ x / 2 ^ ulpExp x := by positivity
    have h2 : (0 : ℚ) ≤ roundHalfEven (x / 2 ^ ulpExp x) := by
      exact_mod_cast roundHalfEven_nonneg h0
    positivity

theorem scaled_lt (x : ℚ) : x / 2 ^ ulpExp x < 2 ^ (53 : ℕ) := by
  rw [div_lt_iff₀ (by positivity)]
  have h1 := lt_zpow_log_succ x
  have h2 : (2 : ℚ) ^ (Int.log 2 x + 1) ≤ 2 ^ (53 : ℕ) * 2 ^ ulpExp x := by
    rw [← zpow_natCast, ← zpow_add₀ (by norm_num)]
    apply zpow_le_zpow_right₀ (by norm_num)
    have := log_sub_le_ulpExp x
    push_cast
    omega
  linarith

theorem le_scaled {x : ℚ} (hx : 0 < x) (he : -1074 < ulpExp x) :
    (2 : ℚ) ^ (52 : ℕ) ≤ x / 2 ^ ulpExp x := by
  rw [le_div_iff₀ (by positivity)]
  have h1 := zpow_log_le hx
  have hu : ulpExp x = Int.log 2 x - 52 := by
    unfold ulpExp at he ⊢
    rcases max_cases (Int.log 2 x - 52) (-1074) with ⟨h, _⟩ | ⟨h, _⟩
    · exact h
    · rw [h] at he; omega
  have h2 : (2 : ℚ) ^ (52 : ℕ) * 2 ^ ulpExp x = 2 ^ Int.log 2 x := by
    rw [← zpow_natCast, ← zpow_add₀ (by norm_num), hu]
    congr 1
    push_cast
    omega
  linarith

theorem roundF64_le_pow {x : ℚ} (hx : 0 < x) : roundF64 x ≤ 2 ^ (ulpExp x + 53) := by
  rw [roundF64, if_neg (not_le.mpr hx)]
  have h1 : roundHalfEven (x / 2 ^ ulpExp x) ≤ 2 ^ (53 : ℕ) := by
    have := roundHalfEven_mono (le_of_lt (scaled_lt x))
    have e : ((2 : ℚ) ^ (53 : ℕ)) = (((2 : ℤ) ^ (53 : ℕ) : ℤ) : ℚ) := by norm_num
    rw [e, roundHalfEven_intCast] at this
    exact this
  have h2 : (roundHalfEven (x / 2 ^ ulpExp x) : ℚ) ≤ 2 ^ (53 : ℕ) := by exact_mod_cast h1
  calc (roundHalfEven (x / 2 ^ ulpExp x) : ℚ) * 2 ^ ulpExp x
      ≤ 2 ^ (53 : ℕ) * 2 ^ ulpExp x := by
        apply mul_le_mul_of_nonneg_right h2 (by positivity)
    _ = 2 ^ (ulpExp x + 53) := by
        rw [← zpow_natCast, ← zpow_add₀ (by norm_num)]
        congr 1
        push_cast
        omega

theorem pow_le_roundF64 {x : ℚ} (hx : 0 < x) (he : -1074 < ulpExp x) :
    (2 : ℚ) ^ (ulpExp x + 52) ≤ roundF64 x := by
  rw [roundF64, if_neg (not_le.mpr hx)]
  have h1 : 2 ^ (52 : ℕ) ≤ roundHalfEven (x / 2 ^ ulpExp x) := by
    have := roundHalfEven_mono (le_scaled hx he)
    have e : ((2 : ℚ) ^ (52 : ℕ)) = (((2 : ℤ) ^ (52 : ℕ) : ℤ) : ℚ) := by norm_num
    rw [e, roundHalfEven_intCast] at this
    exact this
  have h2 : (2 : ℚ) ^ (52 : ℕ) ≤ (roundHalfEven (x / 2 ^ ulpExp x) : ℚ) := by exact_mod_cast h1
  calc (2 : ℚ) ^ (ulpExp x + 52) = 2 ^ (52 : ℕ) * 2 ^ ulpExp x := by
        rw [← zpow_natCast, ← zpow_add₀ (by norm_num)]
        congr 1
        push_cast
        omega
    _ ≤ (roundHalfEven (x / 2 ^ ulpExp x) : ℚ) * 2 ^ ulpExp x := by
        apply mul_le_mul_of_nonneg_right h2 (by positivity)

theorem roundF64_mono {x y : ℚ} (h : x ≤ y) : roundF64 x ≤ roundF64 y := by
  rcases le_or_lt x 0 with hx | hx
  · rw [roundF64, if_pos hx]
    exact roundF64_nonneg y
  · have hy : 0 < y := lt_of_lt_of_le hx h
    rcases lt_or_eq_of_le (ulpExp_mono hx h) with hlt | heq
    · have hey : -1074 < ulpExp y := lt_of_le_of_lt (ulpExp_ge x) hlt
      calc roundF64 x ≤ 2 ^ (ulpExp x + 53) := roundF64_le_pow hx
        _ ≤ 2 ^ (ulpExp y + 52) := by
          apply zpow_le_zpow_right₀ (by norm_num)
          omega
        _ ≤ roundF64 y := pow_le_roundF64 hy hey
    · rw [roundF64, roundF64, if_neg (not_le.mpr hx), if_neg (not_le.mpr hy), heq]
      apply mul_le_mul_of_nonneg_right _ (by positivity)
      have : x / 2 ^ ulpExp y ≤ y / 2 ^ ulpExp y :=
        div_le_div_of_nonneg_right h (by positivity)
      exact_mod_cast roundHalfEven_mono this

theorem roundF64_of_scaled_int {x : ℚ} (hx : 0 < x) {m : ℤ} (h : x / 2 ^ ulpExp x = m) :
    roundF64 x = x := by
  rw [roundF64, if_neg (not_le.mpr hx), h, roundHalfEven_intCast, ← h]
  field_simp

theorem roundF64_natCast {n : ℕ} (h : n ≤ 2 ^ 53) : roundF64 (n : ℚ) = n := by
  rcases Nat.eq_zero_or_pos n with rfl | hpos
  · simp [roundF64]
  · have hx : (0 : ℚ) < n := by exact_mod_cast hpos
    have hL1 : 2 ^ Nat.log 2 n ≤ n := Nat.pow_log_le_self 2 (by omega)
    have hL2 : Nat.log 2 n < 54 :=
      Nat.log_lt_of_lt_pow (by omega) (by omega : n < 2 ^ 54)
    have hu : ulpExp (n : ℚ) = (Nat.log 2 n : ℤ) - 52 := by
      rw [ulpExp, Int.log_natCast]
      exact max_eq_left (by omega)
    rcases Nat.lt_or_ge (Nat.log 2 n) 53 with h52 | h53
    · apply roundF64_of_scaled_int hx (m := ((n * 2 ^ (52 - Nat.log 2 n) : ℕ) : ℤ))
      rw [hu, div_eq_iff (by positivity)]
      push_cast
      rw [mul_assoc, ← zpow_natCast, ← zpow_add₀ (by norm_num)]
      have e : ((52 - Nat.log 2 n : ℕ) : ℤ) + ((Nat.log 2 n : ℤ) - 52) = 0 := by omega
      rw [e]
      simp
    · have hl : Nat.log 2 n = 53 := by omega
      have hn : n = 2 ^ 53 := by
        rw [hl] at hL1
        omega
      apply roundF64_of_scaled_int hx (m := 2 ^ 52)
      rw [hu, hl, hn]
      norm_num

theorem roundF64_threshold :
    roundF64 (3 / 10000) = 5534023222112865 / 2 ^ 64 := by
  rw [roundF64_eq (k := -12) (by norm_num) (by norm_num) (by norm_num),
    roundHalfEven_of_lt_half (n := 5534023222112865) (by norm_num) (by norm_num)]
  norm_num

theorem roundF64_above_threshold :
    roundF64 ((2 * 5534023222112865 + 1) / 2 ^ 65) = 5534023222112866 / 2 ^ 64 := by
  rw [roundF64_eq (k := -12) (by norm_num) (by norm_num) (by norm_num)]
  have e : ((2 * 5534023222112865 + 1) / 2 ^ 65 : ℚ) / 2 ^ ((-12 : ℤ) - 52)
      = ((5534023222112865 : ℤ) : ℚ) + 1 / 2 := by norm_num
  rw [e, roundHalfEven_tie]
  norm_num

theorem roundF64_gt_threshold_iff (r : ℚ) :
    roundF64 (3 / 10000) < roundF64 r ↔ (2 * 5534023222112865 + 1) / 2 ^ 65 ≤ r := by
  constructor
  · intro h
    by_contra hlt
    rw [not_le] at hlt
    rw [roundF64_threshold] at h
    rcases le_or_lt r (5534023222112865 / 2 ^ 64) with hle | hgt
    · have h1 := roundF64_mono hle
      have h2 : roundF64 (5534023222112865 / 2 ^ 64) = 5534023222112865 / 2 ^ 64 := by
        rw [roundF64_eq (k := -12) (by norm_num) (by norm_num) (by norm_num)]
        have e : ((5534023222112865 : ℚ) / 2 ^ 64) / 2 ^ ((-12 : ℤ) - 52)
            = ((5534023222112865 : ℤ) : ℚ) := by norm_num
        rw [e, roundHalfEven_intCast]
        norm_num
      rw [h2] at h1
      linarith
    · have h1 : roundF64 r = 5534023222112865 / 2 ^ 64 := by
        have p1 : (2 : ℚ) ^ (-12 : ℤ) = 1 / 4096 := by norm_num
        have p2 : (2 : ℚ) ^ ((-12 : ℤ) + 1) = 1 / 2048 := by norm_num
        have hb1 : (2 : ℚ) ^ (-12 : ℤ) ≤ r := by
          rw [p1]
          have : (1 / 4096 : ℚ) ≤ 5534023222112865 / 2 ^ 64 := by norm_num
          linarith
        have hb2 : r < (2 : ℚ) ^ ((-12 : ℤ) + 1) := by
          rw [p2]
          have : ((2 * 5534023222112865 + 1) / 2 ^ 65 : ℚ) ≤ 1 / 2048 := by norm_num
          linarith
        rw [roundF64_eq hb1 hb2 (by norm_num)]
        have e : (2 : ℚ) ^ ((-12 : ℤ) - 52) = 1 / 2 ^ 64 := by norm_num
        have e2 : r / (1 / 2 ^ 64) = r * 2 ^ 64 := by field_simp
        rw [div_lt_iff₀ (by norm_num)] at hgt
        rw [lt_div_iff₀ (by norm_num)] at hlt
        rw [e, e2, roundHalfEven_of_lt_half (n := 5534023222112865)]
        · norm_num
        · push_cast
          linarith
        · push_cast
          linarith
      rw [h1] at h
      exact lt_irrefl _ h
  · intro h
    have h1 := roundF64_mono h
    rw [roundF64_above_threshold] at h1
    rw [roundF64_threshold]
    have : (5534023222112865 / 2 ^ 64 : ℚ) < 5534023222112866 / 2 ^ 64 := by norm_num
    linarith

/-! ## The blank-page decision -/

theorem ratioAboveThreshold_iff (d b : ℕ) (hpos : 0 < d + b) (hle : d + b ≤ 2 ^ 53) :
    ratioAboveThreshold { brightPixels := b, darkPixels := d } = true
      ↔ 3 * (d + b) < 10000 * d := by
  have hs : roundF64 ((d : ℚ) + (b : ℚ)) = ((d + b : ℕ) : ℚ) := by
    rw [← Nat.cast_add]
    exact roundF64_natCast hle
  have hq : (0 : ℚ) < ((d + b : ℕ) : ℚ) := by exact_mod_cast hpos
  have hne : ((d + b : ℕ) : ℚ) ≠ 0 := ne_of_gt hq
  simp only [ratioAboveThreshold, darkPixelRatio, hs, if_neg hne, decide_eq_true_eq,
    roundF64_gt_threshold_iff]
  rw [le_div_iff₀ hq]
  constructor
  · intro h
    have h1 : ((2 * 5534023222112865 + 1) * (d + b) : ℚ) ≤ d * 2 ^ 65 := by
      have h2 := mul_le_mul_of_nonneg_right h (by norm_num : (0 : ℚ) ≤ 2 ^ 65)
      push_cast at h2
      linarith
    have h3 : (2 * 5534023222112865 + 1) * (d + b) ≤ d * 2 ^ 65 := by exact_mod_cast h1
    omega
  · intro h
    have h3 : (2 * 5534023222112865 + 1) * (d + b) ≤ d * 2 ^ 65 := by omega
    have h1 : ((2 * 5534023222112865 + 1) * (d + b) : ℚ) ≤ d * 2 ^ 65 := by exact_mod_cast h3
    push_cast
    rw [div_mul_eq_mul_div, div_le_iff₀ (by norm_num)]
    linarith

/-- C2. For dark and bright counts `d` and `b` with `0 < d + b`, within the range `d + b ≤ 2 ^ 53`
in which the `float64` counters are exact, the worker keeps the page and runs the compressor iff
`10000 * d > 3 * (d + b)`, that is iff `d / (d + b) > 0.0003` in exact arithmetic; otherwise it
sets `Keep = false`, does not run the compressor and goes on. In particular `d = 3`,
`d + b = 10000` is discarded and `d = 31`, `d + b = 100000` is kept. -/
theorem blank_page_strict_threshold (d b : ℕ) (gmOk : Bool) (hpos : 0 < d + b)
    (hle : d + b ≤ 2 ^ 53) :
    (((decidePage { brightPixels := b, darkPixels := d } gmOk).Keep = true
        ∧ (decidePage { brightPixels := b, darkPixels := d } gmOk).gmCalled = true)
      ↔ 3 * (d + b) < 10000 * d)
    ∧ (((decidePage { brightPixels := b, darkPixels := d } gmOk).Keep = false
        ∧ (decidePage { brightPixels := b, darkPixels := d } gmOk).gmCalled = false)
      ↔ ¬ 3 * (d + b) < 10000 * d)
    ∧ (3 * (d + b) < 10000 * d ↔ (3 : ℚ) / 10000 < (d : ℚ) / ((d : ℚ) + (b : ℚ)))
    ∧ (decidePage { brightPixels := 9997, darkPixels := 3 } gmOk).Keep = false
    ∧ (decidePage { brightPixels := 9997, darkPixels := 3 } gmOk).gmCalled = false
    ∧ (decidePage { brightPixels := 99969, darkPixels := 31 } gmOk).Keep = true
    ∧ (decidePage { brightPixels := 99969, darkPixels := 31 } gmOk).gmCalled = true := by
  have key := ratioAboveThreshold_iff d b hpos hle
  have k1 : ratioAboveThreshold { brightPixels := ((9997 : ℕ) : ℚ), darkPixels := ((3 : ℕ) : ℚ) }
      = false := by
    have := ratioAboveThreshold_iff 3 9997 (by norm_num) (by norm_num)
    rw [Bool.eq_false_iff, ne_eq, this]
    norm_num
  have k2 : ratioAboveThreshold
      { brightPixels := ((99969 : ℕ) : ℚ), darkPixels := ((31 : ℕ) : ℚ) } = true := by
    rw [ratioAboveThreshold_iff 31 99969 (by norm_num) (by norm_num)]
    norm_num
  simp only [Nat.cast_ofNat] at k1 k2
  refine ⟨?_, ?_, ?_, ?_, ?_, ?_, ?_⟩
  · rw [← key]
    unfold decidePage
    cases ratioAboveThreshold { brightPixels := b, darkPixels := d } <;> cases gmOk <;> simp
  · rw [← key]
    unfold decidePage
    cases ratioAboveThreshold { brightPixels := b, darkPixels := d } <;> cases gmOk <;> simp
  · have hq : (0 : ℚ) < (d : ℚ) + (b : ℚ) := by exact_mod_cast hpos
    rw [div_lt_div_iff₀ (by norm_num) hq]
    constructor
    · intro h
      have : ((3 * (d + b) : ℕ) : ℚ) < ((10000 * d : ℕ) : ℚ) := by exact_mod_cast h
      push_cast at this
      linarith
    · intro h
      have : ((3 * (d + b) : ℕ) : ℚ) < ((10000 * d : ℕ) : ℚ) := by
        push_cast
        linarith
      exact_mod_cast this
  · simp [decidePage, k1]
  · simp [decidePage, k1]
  · cases gmOk <;> simp [decidePage, k2]
  · cases gmOk <;> simp [decidePage, k2]

/-- C2 at the boundary: 3 dark pixels among 10000 are not enough to keep the page. -/
theorem blank_page_strict_threshold_witness :
    0 < 3 + 9997 ∧ 3 + 9997 ≤ 2 ^ 53
    ∧ (((decidePage { brightPixels := (9997 : ℕ), darkPixels := (3 : ℕ) } true).Keep = false
        ∧ (decidePage { brightPixels := (9997 : ℕ), darkPixels := (3 : ℕ) } true).gmCalled = false)
      ↔ ¬ 3 * (3 + 9997) < 10000 * 3) :=
  ⟨by norm_num, by norm_num,
    (blank_page_strict_threshold 3 9997 true (by norm_num) (by norm_num)).2.1⟩

/-! ## The classification of a pixel -/

theorem roundF64_succ {n : ℕ} (h : n < 2 ^ 53) : roundF64 ((n : ℚ) + 1) = ((n + 1 : ℕ) : ℚ) := by
  have := roundF64_natCast (n := n + 1) (by omega)
  rw [← this]
  push_cast
  rfl

theorem isBright_iff (r g b : ℕ) (hr : r ≤ 65535) (hg : g ≤ 65535) (hb : b ≤ 65535) :
    isBright r g b = true ↔ 98307 ≤ r + g + b := by
  have h : (r + g + b) % 2 ^ 32 = r + g + b := Nat.mod_eq_of_lt (by omega)
  simp only [isBright, h, decide_eq_true_eq]
  omega

/-- C4, as the code has it. For 16-bit channel values `r`, `g`, `b` the sum `r + g + b` does not
overflow 32 bits; the pixel is counted as bright iff the integer quotient `(r + g + b) / 3` is
greater than 32768, that is iff `r + g + b ≥ 98307`, and as dark otherwise; and with counters `n`
and `m` below `2 ^ 53` exactly one of the two counters grows by one and the other is unchanged. -/
theorem bright_dark_classification (r g b n m : ℕ) (hr : r ≤ 65535) (hg : g ≤ 65535)
    (hb : b ≤ 65535) (hn : n < 2 ^ 53) (hm : m < 2 ^ 53) :
    r + g + b < 2 ^ 32
    ∧ (isBright r g b = true ↔ 32768 < (r + g + b) / 3)
    ∧ (isBright r g b = true ↔ 98307 ≤ r + g + b)
    ∧ countPixel { brightPixels := n, darkPixels := m } (r, g, b)
        = if 98307 ≤ r + g + b then { brightPixels := (n + 1 : ℕ), darkPixels := m }
          else { brightPixels := n, darkPixels := (m + 1 : ℕ) } := by
  have hi := isBright_iff r g b hr hg hb
  refine ⟨by omega, ?_, hi, ?_⟩
  · rw [hi]
    omega
  · by_cases h : 98307 ≤ r + g + b
    · have hb' : isBright r g b = true := hi.mpr h
      simp only [countPixel, hb', if_true, if_pos h, roundF64_succ hn]
    · have hb' : isBright r g b = false := by
        rw [Bool.eq_false_iff, ne_eq, hi]
        exact h
      simp [countPixel, hb', if_neg h, roundF64_succ hm]

/-- C4 at a concrete pixel and concrete counters: a white pixel makes the bright counter 8. -/
theorem bright_dark_classification_witness :
    65535 ≤ 65535 ∧ 7 < 2 ^ 53 ∧ 2 < 2 ^ 53
    ∧ (isBright 65535 65535 65535 = true ↔ 98307 ≤ 65535 + 65535 + 65535) :=
  ⟨le_rfl, by norm_num, by norm_num,
    (bright_dark_classification 65535 65535 65535 7 2 le_rfl le_rfl le_rfl
      (by norm_num) (by norm_num)).2.2.1⟩

/-- C4 as stated fails: the pixel (32769, 32768, 32768) has the exact mean 32768 + 1/3, which is
greater than 32768, and `r + g + b = 98305 > 98304`, but the code counts it as dark. -/
theorem bright_dark_exact_mean_counterexample :
    98304 < 32769 + 32768 + 32768
    ∧ (32768 : ℚ) < (32769 + 32768 + 32768) / 3
    ∧ isBright 32769 32768 32768 = false
    ∧ countPixel { brightPixels := 0, darkPixels := 0 } (32769, 32768, 32768)
        = { brightPixels := 0, darkPixels := 1 } := by
  refine ⟨by norm_num, by norm_num, by decide, ?_⟩
  have hb : isBright 32769 32768 32768 = false := by decide
  have h1 : roundF64 (1 : ℚ) = 1 := by
    have := roundF64_natCast (n := 1) (by norm_num)
    simpa using this
  simp [countPixel, hb, h1]

/-! ## The border and the sampled positions -/

theorem roundF64_le_two_mul {x : ℚ} (h : (2 : ℚ) ^ (-1022 : ℤ) ≤ x) : roundF64 x ≤ 2 * x := by
  have hx : 0 < x := lt_of_lt_of_le (by positivity) h
  have hl : -1022 ≤ Int.log 2 x := by
    rw [← Int.zpow_le_iff_le_log (by norm_num) hx]
    simpa using h
  have hu : ulpExp x = Int.log 2 x - 52 := max_eq_left (by omega)
  calc roundF64 x ≤ 2 ^ (ulpExp x + 53) := roundF64_le_pow hx
    _ = 2 * 2 ^ Int.log 2 x := by
        rw [hu, show Int.log 2 x - 52 + 53 = Int.log 2 x + 1 by ring,
          zpow_add_one₀ (by norm_num)]
        ring
    _ ≤ 2 * x := by
        have := zpow_log_le hx
        linarith

theorem roundF64_one : roundF64 1 = 1 := by
  have := roundF64_natCast (n := 1) (by norm_num)
  simpa using this

theorem roundF64_border_factor :
    roundF64 (3 / 100) = 8646911284551352 / 2 ^ 58 := by
  rw [roundF64_eq (k := -6) (by norm_num) (by norm_num) (by norm_num),
    roundHalfEven_of_lt_half (n := 8646911284551352) (by norm_num) (by norm_num)]
  norm_num

theorem one_le_roundF64_natCast {m : ℕ} (hm : 1 ≤ m) : 1 ≤ roundF64 (m : ℚ) := by
  have h : (1 : ℚ) ≤ (m : ℚ) := by exact_mod_cast hm
  have := roundF64_mono h
  rwa [roundF64_one] at this

theorem border_eq (MaxX MaxY : ℕ) :
    border MaxX MaxY = ⌊roundF64 (roundF64 (3 / 100) * roundF64 ((min MaxX MaxY : ℕ) : ℚ))⌋₊ := by
  have hm : Monotone (fun n : ℕ => roundF64 (n : ℚ)) :=
    fun a b hab => roundF64_mono (by exact_mod_cast hab)
  have := hm.map_min (a := MaxX) (b := MaxY)
  simp only at this
  rw [border, this]

theorem two_mul_border_lt (MaxX MaxY : ℕ) (hX : 1 ≤ MaxX) (hY : 1 ≤ MaxY) :
    2 * border MaxX MaxY < min MaxX MaxY := by
  have hm : 1 ≤ min MaxX MaxY := le_min hX hY
  have hq : (1 : ℚ) ≤ ((min MaxX MaxY : ℕ) : ℚ) := by exact_mod_cast hm
  have h1 : 1 ≤ roundF64 ((min MaxX MaxY : ℕ) : ℚ) := one_le_roundF64_natCast hm
  have h2 : roundF64 ((min MaxX MaxY : ℕ) : ℚ) ≤ 2 * ((min MaxX MaxY : ℕ) : ℚ) := by
    apply roundF64_le_two_mul
    have : (2 : ℚ) ^ (-1022 : ℤ) ≤ 1 := zpow_le_one_of_nonpos₀ (by norm_num) (by norm_num)
    linarith
  have hc1 : roundF64 (3 / 100) ≤ 3 / 100 := by
    rw [roundF64_border_factor]
    norm_num
  have hc2 : (1 : ℚ) / 64 ≤ roundF64 (3 / 100) := by
    rw [roundF64_border_factor]
    norm_num
  have hc0 : (0 : ℚ) ≤ roundF64 (3 / 100) := roundF64_nonneg _
  have h3 : roundF64 (roundF64 (3 / 100) * roundF64 ((min MaxX MaxY : ℕ) : ℚ))
      ≤ 2 * (roundF64 (3 / 100) * roundF64 ((min MaxX MaxY : ℕ) : ℚ)) := by
    apply roundF64_le_two_mul
    have : (2 : ℚ) ^ (-1022 : ℤ) ≤ 1 / 64 := by
      have e : (1 : ℚ) / 64 = 2 ^ (-6 : ℤ) := by norm_num
      rw [e]
      exact zpow_le_zpow_right₀ (by norm_num) (by norm_num)
    nlinarith
  have h4 : ((border MaxX MaxY : ℕ) : ℚ)
      ≤ roundF64 (roundF64 (3 / 100) * roundF64 ((min MaxX MaxY : ℕ) : ℚ)) := by
    rw [border_eq]
    exact Nat.floor_le (roundF64_nonneg _)
  have h5 : roundF64 (3 / 100) * roundF64 ((min MaxX MaxY : ℕ) : ℚ)
      ≤ 3 / 100 * (2 * ((min MaxX MaxY : ℕ) : ℚ)) := by
    apply mul_le_mul hc1 h2 (by linarith) (by norm_num)
  have h6 : (2 * (border MaxX MaxY : ℕ) : ℚ) < ((min MaxX MaxY : ℕ) : ℚ) := by linarith
  exact_mod_cast h6

theorem mem_countDown (lo hi x : ℕ) : x ∈ countDown lo hi ↔ lo < x ∧ x ≤ hi := by
  induction hi with
  | zero =>
    simp only [countDown, List.not_mem_nil, false_iff]
    omega
  | succ h ih =>
    by_cases hl : lo < h + 1
    · simp only [countDown, if_pos hl, List.mem_cons, ih]
      omega
    · simp only [countDown, if_neg hl, List.not_mem_nil, false_iff]
      omega

theorem nodup_countDown (lo hi : ℕ) : (countDown lo hi).Nodup := by
  induction hi with
  | zero => simp [countDown]
  | succ h ih =>
    by_cases hl : lo < h + 1
    · simp only [countDown, if_pos hl, List.nodup_cons, mem_countDown]
      exact ⟨by omega, ih⟩
    · simp [countDown, if_neg hl]

theorem mem_sampled (MaxX MaxY x y : ℕ) :
    (x, y) ∈ sampled MaxX MaxY
      ↔ (border MaxX MaxY < x ∧ x ≤ MaxX - border MaxX MaxY)
        ∧ (border MaxX MaxY < y ∧ y ≤ MaxY - border MaxX MaxY) := by
  simp only [sampled, List.mem_flatMap, List.mem_map, mem_countDown, Prod.mk.injEq]
  constructor
  · rintro ⟨a, ha, b, hb, rfl, rfl⟩
    exact ⟨ha, hb⟩
  · rintro ⟨hx, hy⟩
    exact ⟨x, hx, y, hy, rfl, rfl⟩

theorem nodup_sampled (MaxX MaxY : ℕ) : (sampled MaxX MaxY).Nodup := by
  rw [sampled, List.nodup_flatMap]
  constructor
  · intro x _
    exact (nodup_countDown _ _).map (fun a b h => (Prod.mk.inj h).2)
  · apply (nodup_countDown _ _).imp
    intro a b hab
    simp only [Function.onFun, List.disjoint_left, List.mem_map]
    rintro p ⟨y, _, rfl⟩ ⟨y', _, h⟩
    exact hab (Prod.mk.inj h).1.symm

/-! ## The counters and the ratio -/

theorem roundF64_saturated : roundF64 (((2 ^ 53 : ℕ) : ℚ) + 1) = ((2 ^ 53 : ℕ) : ℚ) := by
  rw [roundF64_eq (k := 53) (by norm_num) (by norm_num) (by norm_num)]
  have e : (((2 ^ 53 : ℕ) : ℚ) + 1) / 2 ^ ((53 : ℤ) - 52)
      = (((2 : ℤ) ^ 52 : ℤ) : ℚ) + 1 / 2 := by norm_num
  rw [e, roundHalfEven_tie]
  norm_num

theorem counter_incr (n : ℕ) (h : n ≤ 2 ^ 53) :
    ∃ k : ℕ, k ≤ 2 ^ 53 ∧ roundF64 ((n : ℚ) + 1) = (k : ℚ) ∧ n ≤ k ∧ 1 ≤ k := by
  rcases Nat.lt_or_ge n (2 ^ 53) with hlt | hge
  · exact ⟨n + 1, by omega, roundF64_succ hlt, by omega, by omega⟩
  · have hn : n = 2 ^ 53 := by omega
    subst hn
    exact ⟨2 ^ 53, le_rfl, roundF64_saturated, le_rfl, by norm_num⟩

theorem countPixel_nat (nb nd : ℕ) (hb : nb ≤ 2 ^ 53) (hd : nd ≤ 2 ^ 53)
    (rgb : ℕ × ℕ × ℕ) :
    ∃ kb kd : ℕ, kb ≤ 2 ^ 53 ∧ kd ≤ 2 ^ 53
      ∧ countPixel { brightPixels := nb, darkPixels := nd } rgb
          = { brightPixels := kb, darkPixels := kd }
      ∧ nb ≤ kb ∧ nd ≤ kd ∧ 1 ≤ kb + kd := by
  by_cases h : isBright rgb.1 rgb.2.1 rgb.2.2 = true
  · obtain ⟨k, hk, he, hle, h1⟩ := counter_incr nb hb
    exact ⟨k, nd, hk, hd, by simp [countPixel, h, he], hle, le_rfl, by omega⟩
  · obtain ⟨k, hk, he, hle, h1⟩ := counter_incr nd hd
    exact ⟨nb, k, hb, hk, by simp [countPixel, h, he], le_rfl, hle, by omega⟩

theorem countPixelsFrom_nat (img : Image) (l : List (ℕ × ℕ)) (nb nd : ℕ)
    (hb : nb ≤ 2 ^ 53) (hd : nd ≤ 2 ^ 53)
    (hread : ∀ p ∈ l, ∃ rgb, img.RGBA p.1 p.2 = some rgb) :
    ∃ kb kd : ℕ, kb ≤ 2 ^ 53 ∧ kd ≤ 2 ^ 53
      ∧ countPixelsFrom img l { brightPixels := nb, darkPixels := nd }
          = some { brightPixels := kb, darkPixels := kd }
      ∧ nb ≤ kb ∧ nd ≤ kd ∧ (l ≠ [] → 1 ≤ kb + kd) := by
  induction l generalizing nb nd with
  | nil => exact ⟨nb, nd, hb, hd, rfl, le_rfl, le_rfl, fun h => absurd rfl h⟩
  | cons p rest ih =>
    obtain ⟨rgb, hrgb⟩ := hread p (List.mem_cons_self _ _)
    obtain ⟨b1, d1, hb1, hd1, e1, hbb, hdd, hpos⟩ := countPixel_nat nb nd hb hd rgb
    obtain ⟨b2, d2, hb2, hd2, e2, hbb2, hdd2, _⟩ :=
      ih b1 d1 hb1 hd1 (fun q hq => hread q (List.mem_cons_of_mem _ hq))
    refine ⟨b2, d2, hb2, hd2, ?_, by omega, by omega, fun _ => by omega⟩
    simp only [countPixelsFrom, hrgb, e1, e2]

theorem darkPixelRatio_nat (nb nd : ℕ) (hd : nd ≤ 2 ^ 53) (hpos : 1 ≤ nb + nd) :
    1 ≤ roundF64 ((nd : ℚ) + (nb : ℚ))
    ∧ ∃ r : ℚ, darkPixelRatio { brightPixels := nb, darkPixels := nd } = some r
        ∧ 0 ≤ r ∧ r ≤ 1 := by
  have h1 : (1 : ℚ) ≤ (nd : ℚ) + (nb : ℚ) := by
    have : ((1 : ℕ) : ℚ) ≤ ((nb + nd : ℕ) : ℚ) := by exact_mod_cast hpos
    push_cast at this
    linarith
  have hs1 : 1 ≤ roundF64 ((nd : ℚ) + (nb : ℚ)) := by
    have := roundF64_mono h1
    rwa [roundF64_one] at this
  have hs2 : (nd : ℚ) ≤ roundF64 ((nd : ℚ) + (nb : ℚ)) := by
    have h2 : (nd : ℚ) ≤ (nd : ℚ) + (nb : ℚ) := by
      have : (0 : ℚ) ≤ (nb : ℚ) := Nat.cast_nonneg nb
      linarith
    have := roundF64_mono h2
    rwa [roundF64_natCast hd] at this
  refine ⟨hs1, roundF64 ((nd : ℚ) / roundF64 ((nd : ℚ) + (nb : ℚ))), ?_, roundF64_nonneg _, ?_⟩
  · have hne : roundF64 ((nd : ℚ) + (nb : ℚ)) ≠ 0 := by linarith
    simp [darkPixelRatio, hne]
  · have h3 : (nd : ℚ) / roundF64 ((nd : ℚ) + (nb : ℚ)) ≤ 1 := by
      rw [div_le_one (by linarith)]
      exact hs2
    have := roundF64_mono h3
    rwa [roundF64_one] at this

/-! ## The border is the floor of 3 percent of the smaller side -/

theorem roundF64_dyadic {N j : ℕ} (h1 : 1 ≤ N) (h2 : N ≤ 2 ^ 53) (hj : j ≤ 1022) :
    roundF64 ((N : ℚ) / 2 ^ j) = (N : ℚ) / 2 ^ j := by
  have hL1 : 2 ^ Nat.log 2 N ≤ N := Nat.pow_log_le_self 2 (by omega)
  have hL2 : N < 2 ^ (Nat.log 2 N + 1) := Nat.lt_pow_succ_log_self (by norm_num) N
  have hL3 : Nat.log 2 N < 54 := Nat.log_lt_of_lt_pow (by omega) (by omega : N < 2 ^ 54)
  have hN : (0 : ℚ) < (N : ℚ) := by exact_mod_cast h1
  have hx : (0 : ℚ) < (N : ℚ) / 2 ^ j := by positivity
  have b1 : (2 : ℚ) ^ ((Nat.log 2 N : ℤ) - (j : ℤ)) ≤ (N : ℚ) / 2 ^ j := by
    rw [zpow_sub₀ (by norm_num), zpow_natCast, zpow_natCast]
    apply div_le_div_of_nonneg_right _ (by positivity)
    exact_mod_cast hL1
  have b2 : (N : ℚ) / 2 ^ j < (2 : ℚ) ^ ((Nat.log 2 N : ℤ) - (j : ℤ) + 1) := by
    rw [show (Nat.log 2 N : ℤ) - (j : ℤ) + 1 = ((Nat.log 2 N + 1 : ℕ) : ℤ) - (j : ℤ) by
      push_cast; ring, zpow_sub₀ (by norm_num), zpow_natCast, zpow_natCast]
    apply div_lt_div_of_pos_right _ (by positivity)
    exact_mod_cast hL2
  have hu : ulpExp ((N : ℚ) / 2 ^ j) = (Nat.log 2 N : ℤ) - (j : ℤ) - 52 :=
    ulpExp_of_binade b1 b2 (by omega)
  have hz : (2 : ℚ) ^ ((Nat.log 2 N : ℤ) - (j : ℤ) - 52)
      = 2 ^ Nat.log 2 N / (2 ^ j * 2 ^ 52) := by
    rw [zpow_sub₀ (by norm_num), zpow_sub₀ (by norm_num), zpow_natCast, zpow_natCast]
    rw [div_div]
    norm_num
  rcases Nat.lt_or_ge (Nat.log 2 N) 53 with h52 | h53
  · apply roundF64_of_scaled_int hx (m := ((N * 2 ^ (52 - Nat.log 2 N) : ℕ) : ℤ))
    have hp : (2 : ℚ) ^ (52 - Nat.log 2 N) * 2 ^ Nat.log 2 N = 2 ^ 52 := by
      rw [← pow_add]
      congr 1
      omega
    rw [hu, hz, div_eq_iff (by positivity)]
    push_cast
    field_simp
    rw [← hp]
    ring
  · have hl : Nat.log 2 N = 53 := by omega
    have hn : N = 2 ^ 53 := by
      rw [hl] at hL1
      omega
    apply roundF64_of_scaled_int hx (m := 2 ^ 52)
    rw [hu, hz, hl, hn]
    push_cast
    field_simp
    ring

theorem roundF64_border_product_exact {m q : ℕ} (hq : 1 ≤ q) (h3 : 3 * m = 100 * q)
    (hm : m ≤ 2 ^ 50) :
    roundF64 (8646911284551352 / 2 ^ 58 * (m : ℚ)) = (q : ℚ) := by
  have hk1 : 2 ^ Nat.log 2 q ≤ q := Nat.pow_log_le_self 2 (by omega)
  have hk2 : q < 2 ^ (Nat.log 2 q + 1) := Nat.lt_pow_succ_log_self (by norm_num) q
  have hk3 : Nat.log 2 q < 46 := Nat.log_lt_of_lt_pow (by omega) (by omega : q < 2 ^ 46)
  have hne : 2 ^ Nat.log 2 q ≠ q := by
    intro he
    have h3q : 3 ∣ q := by
      have : 3 ∣ 100 * q := ⟨m, h3.symm⟩
      exact (Nat.Coprime.dvd_mul_left (by norm_num : Nat.Coprime 3 100)).mp this
    rw [← he] at h3q
    have := Nat.Prime.dvd_of_dvd_pow Nat.prime_three h3q
    omega
  have hk1' : 2 ^ Nat.log 2 q + 1 ≤ q := by omega
  have hT : 2 ^ (Nat.log 2 q + 1) * 2 ^ (52 - Nat.log 2 q) = 2 ^ 53 := by
    rw [← pow_add]
    congr 1
    omega
  have hTpos : 0 < 2 ^ (52 - Nat.log 2 q) := by positivity
  have hN : q * 2 ^ (52 - Nat.log 2 q) < 2 ^ 53 := by
    rw [← hT]
    exact Nat.mul_lt_mul_of_pos_right hk2 hTpos
  have hNpos : 0 < q * 2 ^ (52 - Nat.log 2 q) := Nat.mul_pos (by omega) hTpos
  have hNq : (((q * 2 ^ (52 - Nat.log 2 q) : ℕ) : ℤ) : ℚ)
      = (q : ℚ) * 2 ^ (52 - Nat.log 2 q) := by push_cast; ring
  have hNlt : (q : ℚ) * 2 ^ (52 - Nat.log 2 q) < 2 ^ 53 := by exact_mod_cast hN
  have hNgt : (0 : ℚ) < (q : ℚ) * 2 ^ (52 - Nat.log 2 q) := by exact_mod_cast hNpos
  have h3q : (3 : ℚ) * m = 100 * q := by exact_mod_cast h3
  have hP : (8646911284551352 / 2 ^ 58 * (m : ℚ))
      = (q : ℚ) * ((3 * 2 ^ 58 - 32) / (3 * 2 ^ 58)) := by
    have : (m : ℚ) = 100 * q / 3 := by linarith
    rw [this]
    ring
  have hq1 : ((2 ^ Nat.log 2 q + 1 : ℕ) : ℚ) ≤ (q : ℚ) := by exact_mod_cast hk1'
  have hq2 : (q : ℚ) < ((2 ^ (Nat.log 2 q + 1) : ℕ) : ℚ) := by exact_mod_cast hk2
  have hq3 : (q : ℚ) ≤ 2 ^ 46 := by
    have : q ≤ 2 ^ 46 := by omega
    exact_mod_cast this
  push_cast at hq1 hq2
  rw [hP]
  have b1 : (2 : ℚ) ^ ((Nat.log 2 q : ℕ) : ℤ) ≤ (q : ℚ) * ((3 * 2 ^ 58 - 32) / (3 * 2 ^ 58)) := by
    rw [zpow_natCast]
    have : (q : ℚ) * ((3 * 2 ^ 58 - 32) / (3 * 2 ^ 58)) = q - q * (32 / (3 * 2 ^ 58)) := by ring
    rw [this]
    have : (q : ℚ) * (32 / (3 * 2 ^ 58)) ≤ 1 := by
      have := mul_le_mul_of_nonneg_right hq3 (by norm_num : (0 : ℚ) ≤ 32 / (3 * 2 ^ 58))
      have e : (2 : ℚ) ^ 46 * (32 / (3 * 2 ^ 58)) ≤ 1 := by norm_num
      linarith
    linarith
  have b2 : (q : ℚ) * ((3 * 2 ^ 58 - 32) / (3 * 2 ^ 58))
      < (2 : ℚ) ^ (((Nat.log 2 q : ℕ) : ℤ) + 1) := by
    rw [show ((Nat.log 2 q : ℕ) : ℤ) + 1 = ((Nat.log 2 q + 1 : ℕ) : ℤ) by push_cast; ring,
      zpow_natCast]
    have : (q : ℚ) * ((3 * 2 ^ 58 - 32) / (3 * 2 ^ 58)) ≤ q := by
      have hq0 : (0 : ℚ) ≤ q := Nat.cast_nonneg q
      have : ((3 * 2 ^ 58 - 32) / (3 * 2 ^ 58) : ℚ) ≤ 1 := by norm_num
      nlinarith
    linarith
  rw [roundF64_eq b1 b2 (by omega)]
  have hz : (2 : ℚ) ^ (((Nat.log 2 q : ℕ) : ℤ) - 52) = 1 / 2 ^ (52 - Nat.log 2 q) := by
    rw [show ((Nat.log 2 q : ℕ) : ℤ) - 52 = -((52 - Nat.log 2 q : ℕ) : ℤ) by omega,
      zpow_neg, zpow_natCast]
    simp
  rw [hz]
  have hx : (q : ℚ) * ((3 * 2 ^ 58 - 32) / (3 * 2 ^ 58)) / (1 / 2 ^ (52 - Nat.log 2 q))
      = (q : ℚ) * 2 ^ (52 - Nat.log 2 q) * ((3 * 2 ^ 58 - 32) / (3 * 2 ^ 58)) := by
    field_simp
    ring
  rw [hx, roundHalfEven_of_gt_half (n := ((q * 2 ^ (52 - Nat.log 2 q) : ℕ) : ℤ) - 1)]
  · push_cast
    field_simp
  · push_cast
    have e : (q : ℚ) * 2 ^ (52 - Nat.log 2 q) * ((3 * 2 ^ 58 - 32) / (3 * 2 ^ 58))
        = (q : ℚ) * 2 ^ (52 - Nat.log 2 q)
          - (q : ℚ) * 2 ^ (52 - Nat.log 2 q) * (32 / (3 * 2 ^ 58)) := by ring
    rw [e]
    have := mul_lt_mul_of_pos_right hNlt (by norm_num : (0 : ℚ) < 32 / (3 * 2 ^ 58))
    have e2 : (2 : ℚ) ^ 53 * (32 / (3 * 2 ^ 58)) = 1 / 3 := by norm_num
    linarith
  · push_cast
    have e : (q : ℚ) * 2 ^ (52 - Nat.log 2 q) * ((3 * 2 ^ 58 - 32) / (3 * 2 ^ 58))
        = (q : ℚ) * 2 ^ (52 - Nat.log 2 q)
          - (q : ℚ) * 2 ^ (52 - Nat.log 2 q) * (32 / (3 * 2 ^ 58)) := by ring
    rw [e]
    have := mul_pos hNgt (by norm_num : (0 : ℚ) < 32 / (3 * 2 ^ 58))
    linarith

theorem floor_border_product (m : ℕ) (h : m ≤ 2 ^ 50) :
    ⌊roundF64 (8646911284551352 / 2 ^ 58 * (m : ℚ))⌋₊ = 3 * m / 100 := by
  have hdm := Nat.div_add_mod (3 * m) 100
  have hslt := Nat.mod_lt (3 * m) (by norm_num : 100 > 0)
  generalize 3 * m / 100 = q at hdm ⊢
  generalize 3 * m % 100 = s at hdm hslt
  have hmq : (m : ℚ) ≤ 2 ^ 50 := by exact_mod_cast h
  have hm0 : (0 : ℚ) ≤ (m : ℚ) := Nat.cast_nonneg m
  have hdq : (100 : ℚ) * q + s = 3 * m := by exact_mod_cast hdm
  rcases Nat.eq_zero_or_pos s with hs | hs
  · have h3 : 3 * m = 100 * q := by omega
    rcases Nat.eq_zero_or_pos q with hq | hq
    · have hm0 : m = 0 := by omega
      simp [hm0, hq, roundF64]
    · rw [roundF64_border_product_exact hq h3 h]
      exact Nat.floor_natCast q
  · have hsq : (1 : ℚ) ≤ (s : ℚ) := by exact_mod_cast hs
    have hsq2 : (s : ℚ) ≤ 99 := by
      have : s ≤ 99 := by omega
      exact_mod_cast this
    have hP : (8646911284551352 / 2 ^ 58 * (m : ℚ))
        = 3 * m / 100 - m * (32 / (100 * 2 ^ 58)) := by ring
    have hsmall : (m : ℚ) * (32 / (100 * 2 ^ 58)) ≤ 1 / 100 := by
      have := mul_le_mul_of_nonneg_right hmq (by norm_num : (0 : ℚ) ≤ 32 / (100 * 2 ^ 58))
      have e : (2 : ℚ) ^ 50 * (32 / (100 * 2 ^ 58)) ≤ 1 / 100 := by norm_num
      linarith
    have hsmall0 : 0 ≤ (m : ℚ) * (32 / (100 * 2 ^ 58)) := by positivity
    rw [Nat.floor_eq_iff (roundF64_nonneg _)]
    constructor
    · have hle : (q : ℚ) ≤ 8646911284551352 / 2 ^ 58 * (m : ℚ) := by
        rw [hP]
        linarith
      have := roundF64_mono hle
      rwa [roundF64_natCast (by omega : q ≤ 2 ^ 53)] at this
    · have hle : 8646911284551352 / 2 ^ 58 * (m : ℚ)
          ≤ ((128 * (q + 1) - 1 : ℕ) : ℚ) / 2 ^ 7 := by
        rw [hP]
        have e : ((128 * (q + 1) - 1 : ℕ) : ℚ) = 128 * ((q : ℚ) + 1) - 1 := by
          have : 1 ≤ 128 * (q + 1) := by omega
          push_cast [Nat.cast_sub this]
          ring
        rw [e]
        norm_num
        linarith
      have hu := roundF64_dyadic (N := 128 * (q + 1) - 1) (j := 7) (by omega) (by omega)
        (by norm_num)
      have := roundF64_mono hle
      rw [hu] at this
      have e : ((128 * (q + 1) - 1 : ℕ) : ℚ) = 128 * ((q : ℚ) + 1) - 1 := by
        have : 1 ≤ 128 * (q + 1) := by omega
        push_cast [Nat.cast_sub this]
        ring
      rw [e] at this
      have e2 : (128 * ((q : ℚ) + 1) - 1) / 2 ^ 7 < (q : ℚ) + 1 := by
        norm_num
        linarith
      linarith

theorem border_eq_floor (MaxX MaxY : ℕ) (h : min MaxX MaxY ≤ 2 ^ 50) :
    border MaxX MaxY = 3 * min MaxX MaxY / 100 := by
  rw [border_eq, roundF64_natCast (by omega), roundF64_border_factor]
  exact floor_border_product _ h

/-! ## The denominator of the ratio -/

theorem one_le_border (MaxX MaxY : ℕ) (h : 34 ≤ min MaxX MaxY) : 1 ≤ border MaxX MaxY := by
  rw [border_eq]
  apply Nat.le_floor
  have h34 : ((34 : ℕ) : ℚ) ≤ ((min MaxX MaxY : ℕ) : ℚ) := by exact_mod_cast h
  have h1 := roundF64_mono h34
  rw [roundF64_natCast (by norm_num)] at h1
  have h2 : (1 : ℚ) ≤ roundF64 (3 / 100) * roundF64 ((min MaxX MaxY : ℕ) : ℚ) := by
    rw [roundF64_border_factor]
    have hc : (1 : ℚ) ≤ 8646911284551352 / 2 ^ 58 * ((34 : ℕ) : ℚ) := by norm_num
    have hpos : (0 : ℚ) ≤ 8646911284551352 / 2 ^ 58 := by norm_num
    have := mul_le_mul_of_nonneg_left h1 hpos
    linarith
  have h3 := roundF64_mono h2
  rw [roundF64_one] at h3
  simpa using h3

theorem sampled_inside (MaxX MaxY : ℕ) (h : 1 ≤ border MaxX MaxY) (p : ℕ × ℕ)
    (hp : p ∈ sampled MaxX MaxY) : p.1 < MaxX ∧ p.2 < MaxY := by
  obtain ⟨x, y⟩ := p
  rw [mem_sampled] at hp
  simp only
  omega

/-- The counters add up to at least 1 and the ratio is a number between 0 and 1 for every image
with sides of at least 34 pixels: there the border is at least 1, every position the loops read
lies inside the bounds, and no call of `At` panics. -/
theorem dark_ratio_defined_inside (img : Image)
    (hread : ∀ x y, x < img.MaxX → y < img.MaxY → ∃ rgb, img.RGBA x y = some rgb)
    (h34 : 34 ≤ min img.MaxX img.MaxY) :
    2 * border img.MaxX img.MaxY < min img.MaxX img.MaxY
    ∧ sampled img.MaxX img.MaxY ≠ []
    ∧ ∃ c : Counters, countPixels img = some c
        ∧ 1 ≤ c.darkPixels + c.brightPixels
        ∧ roundF64 (c.darkPixels + c.brightPixels) ≠ 0
        ∧ ∃ r : ℚ, darkPixelRatio c = some r ∧ 0 ≤ r ∧ r ≤ 1 := by
  have hX : 1 ≤ img.MaxX := by
    have := min_le_left img.MaxX img.MaxY
    omega
  have hY : 1 ≤ img.MaxY := by
    have := min_le_right img.MaxX img.MaxY
    omega
  have hb := two_mul_border_lt img.MaxX img.MaxY hX hY
  have hb1 := one_le_border img.MaxX img.MaxY h34
  have hbX : border img.MaxX img.MaxY < img.MaxX - border img.MaxX img.MaxY := by
    have := min_le_left img.MaxX img.MaxY
    omega
  have hbY : border img.MaxX img.MaxY < img.MaxY - border img.MaxX img.MaxY := by
    have := min_le_right img.MaxX img.MaxY
    omega
  have hmem : (img.MaxX - border img.MaxX img.MaxY, img.MaxY - border img.MaxX img.MaxY)
      ∈ sampled img.MaxX img.MaxY :=
    (mem_sampled _ _ _ _).mpr ⟨⟨hbX, le_rfl⟩, ⟨hbY, le_rfl⟩⟩
  have hne : sampled img.MaxX img.MaxY ≠ [] := List.ne_nil_of_mem hmem
  obtain ⟨kb, kd, hkb, hkd, e, _, _, hpos⟩ :=
    countPixelsFrom_nat img (sampled img.MaxX img.MaxY) 0 0 (by norm_num) (by norm_num)
      (fun p hp => hread p.1 p.2 (sampled_inside _ _ hb1 p hp).1 (sampled_inside _ _ hb1 p hp).2)
  have e' : countPixels img = some { brightPixels := kb, darkPixels := kd } := by
    rw [countPixels]
    simpa using e
  have hp : 1 ≤ kb + kd := hpos hne
  obtain ⟨hs, r, hr, h0, h1⟩ := darkPixelRatio_nat kb kd hkd hp
  refine ⟨hb, hne, { brightPixels := kb, darkPixels := kd }, e', ?_, ?_, r, hr, h0, h1⟩
  · have : ((1 : ℕ) : ℚ) ≤ ((kb + kd : ℕ) : ℚ) := by exact_mod_cast hp
    push_cast at this
    simp only
    linarith
  · simp only
    linarith

theorem head_countDown (hi : ℕ) (h : 0 < hi) : ∃ rest, countDown 0 hi = hi :: rest := by
  cases hi with
  | zero => omega
  | succ n => exact ⟨countDown 0 n, by simp [countDown]⟩

theorem sampled_of_border_zero (MaxX MaxY : ℕ) (hX : 1 ≤ MaxX) (hY : 1 ≤ MaxY)
    (hb : border MaxX MaxY = 0) : ∃ rest, sampled MaxX MaxY = (MaxX, MaxY) :: rest := by
  obtain ⟨rx, hx⟩ := head_countDown MaxX (by omega)
  obtain ⟨ry, hy⟩ := head_countDown MaxY (by omega)
  refine ⟨ry.map (fun y => (MaxX, y))
    ++ rx.flatMap (fun x => (MaxY :: ry).map (fun y => (x, y))), ?_⟩
  simp only [sampled, hb, Nat.sub_zero, hx, hy, List.flatMap_cons, List.map_cons,
    List.cons_append]

theorem countPixels_panics (img : Image) (hX : 1 ≤ img.MaxX) (hY : 1 ≤ img.MaxY)
    (hsmall : min img.MaxX img.MaxY ≤ 33) (hout : img.RGBA img.MaxX img.MaxY = none) :
    countPixels img = none := by
  have hb : border img.MaxX img.MaxY = 0 := by
    rw [border_eq_floor _ _ (by omega)]
    omega
  obtain ⟨rest, hs⟩ := sampled_of_border_zero img.MaxX img.MaxY hX hY hb
  simp [countPixels, hs, countPixelsFrom, hout]

/-- C10, what the code does on a small image. For every decoded image with a side of at most
33 pixels whose `At(Max.X, Max.Y).RGBA()` panics, the border is 0, the first position the loops
read is `(Max.X, Max.Y)`, which is outside the bounds of the image, and the pass ends there in a
panic: no counter has been incremented, the division
`darkPixels / (darkPixels + brightPixels)` is not reached, `gm` is not run and `cleanExit` is not
called. -/
theorem dark_ratio_not_reached_on_small_image (img : Image) (hX : 1 ≤ img.MaxX)
    (hY : 1 ≤ img.MaxY) (hsmall : min img.MaxX img.MaxY ≤ 33)
    (hout : img.RGBA img.MaxX img.MaxY = none) :
    border img.MaxX img.MaxY = 0
    ∧ (sampled img.MaxX img.MaxY).head? = some (img.MaxX, img.MaxY)
    ∧ ¬ (img.MaxX < img.MaxX ∧ img.MaxY < img.MaxY)
    ∧ countPixels img = none
    ∧ ∀ gmOk, convertPage true (some img) gmOk
        = { gmCalled := false, Keep := true, exit := none, panicked := true } := by
  have hb : border img.MaxX img.MaxY = 0 := by
    rw [border_eq_floor _ _ (by omega)]
    omega
  obtain ⟨rest, hs⟩ := sampled_of_border_zero img.MaxX img.MaxY hX hY hb
  have hc := countPixels_panics img hX hY hsmall hout
  refine ⟨hb, by simp [hs], by omega, hc, fun gmOk => ?_⟩
  unfold convertPage
  rw [if_pos rfl]
  simp only [hc]

/-- C10 on a white 10 x 10 image whose `At` panics outside the bounds: the border is 0, the
first read is at (10, 10), and the pass ends in a panic before the division. -/
theorem dark_ratio_not_reached_on_small_image_witness :
    (1 ≤ 10 ∧ 1 ≤ 10 ∧ min 10 10 ≤ 33
      ∧ ({ MaxX := 10, MaxY := 10,
           RGBA := fun x y =>
             if x < 10 ∧ y < 10 then some (65535, 65535, 65535) else none } : Image).RGBA 10 10
          = none)
    ∧ border 10 10 = 0
    ∧ (sampled 10 10).head? = some (10, 10)
    ∧ countPixels
        { MaxX := 10, MaxY := 10,
          RGBA := fun x y => if x < 10 ∧ y < 10 then some (65535, 65535, 65535) else none }
        = none
    ∧ convertPage true
        (some { MaxX := 10, MaxY := 10,
                RGBA := fun x y =>
                  if x < 10 ∧ y < 10 then some (65535, 65535, 65535) else none })
        true = { gmCalled := false, Keep := true, exit := none, panicked := true } :=
  have hout :
      ({ MaxX := 10, MaxY := 10,
         RGBA := fun x y =>
           if x < 10 ∧ y < 10 then some (65535, 65535, 65535) else none } : Image).RGBA 10 10
        = none := by
    show (if (10 : ℕ) < 10 ∧ (10 : ℕ) < 10 then some (65535, 65535, 65535) else none)
      = (none : Option (ℕ × ℕ × ℕ))
    rw [if_neg]
    omega
  have h := dark_ratio_not_reached_on_small_image
    { MaxX := 10, MaxY := 10,
      RGBA := fun x y => if x < 10 ∧ y < 10 then some (65535, 65535, 65535) else none }
    (by norm_num) (by norm_num) (by norm_num) hout
  ⟨⟨by norm_num, by norm_num, by norm_num, hout⟩, h.1, h.2.1, h.2.2.2.1, h.2.2.2.2 true⟩

/-! ## The sampled region -/

/-- C3, what the code does. The loops `for x := Max.X - border; x > border; x--` visit each
position with `border < x ≤ Max.X - border` and `border < y ≤ Max.Y - border` once and no other
position: the upper ends `x = Max.X - border` and `y = Max.Y - border` are sampled. For a
1700 x 2200 image the border is 51 and the position (1649, 2149), which lies on the margin and
not in the open interval, is sampled; for a 10 x 10 image the border is 0 and the position
(10, 10), which is outside the bounds of the image, is sampled; and for an image of one pixel
the only position sampled is (1, 1), outside the bounds, and the pixel of the image is not. -/
theorem sampled_region_includes_upper_ends :
    (∀ MaxX MaxY x y : ℕ, (x, y) ∈ sampled MaxX MaxY
        ↔ (border MaxX MaxY < x ∧ x ≤ MaxX - border MaxX MaxY)
          ∧ (border MaxX MaxY < y ∧ y ≤ MaxY - border MaxX MaxY))
    ∧ (∀ MaxX MaxY : ℕ, (sampled MaxX MaxY).Nodup)
    ∧ border 1700 2200 = 3 * min 1700 2200 / 100
    ∧ border 1700 2200 = 51
    ∧ (1649, 2149) ∈ sampled 1700 2200
    ∧ ¬ (1649 < 1700 - border 1700 2200)
    ∧ ¬ (2149 < 2200 - border 1700 2200)
    ∧ border 10 10 = 0
    ∧ (10, 10) ∈ sampled 10 10
    ∧ ¬ (10 < 10)
    ∧ sampled 1 1 = [(1, 1)]
    ∧ ¬ (1 < 1)
    ∧ (0, 0) ∉ sampled 1 1 := by
  have hb1 : border 1700 2200 = 51 := by
    rw [border_eq_floor _ _ (by norm_num)]
    norm_num
  have hb2 : border 10 10 = 0 := by
    rw [border_eq_floor _ _ (by norm_num)]
    norm_num
  have hb3 : border 1 1 = 0 := by
    rw [border_eq_floor _ _ (by norm_num)]
    norm_num
  have hs : sampled 1 1 = [(1, 1)] := by
    simp [sampled, hb3, countDown]
  refine ⟨mem_sampled, nodup_sampled, border_eq_floor _ _ (by norm_num), hb1, ?_, ?_, ?_, hb2,
    ?_, by norm_num, hs, by norm_num, by simp [hs]⟩
  · rw [mem_sampled, hb1]
    norm_num
  · rw [hb1]
    norm_num
  · rw [hb1]
    norm_num
  · rw [mem_sampled, hb2]
    norm_num

/-! ## The handshake -/

theorem driver_step_consistent {s t : Driver} {e : DriverEvent} (h : s.step e = some t)
    (hs : s.Consistent) : t.Consistent := by
  obtain ⟨h1, h2, h3⟩ := hs
  unfold Driver.step at h
  by_cases hx : s.exit.isSome = true
  · rw [if_pos hx] at h
    cases h
  · rw [if_neg hx] at h
    cases e with
    | stderrLine noDevice prompt =>
      cases hst : s.status <;> simp only [hst] at h
      · simp only [hst] at h2
        by_cases hn : noDevice = true
        · rw [if_pos hn] at h
          cases h
          exact ⟨h1, by simpa using h2, h3⟩
        · rw [if_neg hn] at h
          by_cases hp : prompt = true
          · rw [if_pos hp] at h
            cases h
            refine ⟨h1, ?_, h3⟩
            simp only [h2]
            simp
          · rw [if_neg hp] at h
            cases h
            exact ⟨h1, by simpa [hst] using h2, h3⟩
      · cases h
    | stdoutLine name =>
      cases hr : s.results <;> simp only [hr] at h <;> cases h
      simp only [hr] at h1 h3
      refine ⟨?_, h2, ?_⟩
      · simpa using h1
      · simp only [List.length_append, List.length_singleton, h3]
        simp
    | receive =>
      cases hr : s.results <;> simp only [hr] at h <;> try cases h
      by_cases hi : 0 < s.idle
      · rw [if_pos hi] at h
        cases h
        simp only [hr] at h1 h3
        refine ⟨?_, h2, ?_⟩
        · simp only [h1]
          simp
        · simp only [h3]
          simp
      · rw [if_neg hi] at h
        cases h
    | advance =>
      cases hr : s.results <;> cases hst : s.status <;> simp only [hr, hst] at h <;> cases h
      simp only [hr, hst] at h1 h2 h3
      refine ⟨?_, ?_, ?_⟩
      · simp only [h1]
        simp
      · simp only [h2]
        simp
      · simp only [h3]
        simp
    | workerBack =>
      by_cases hb : 0 < s.busy
      · rw [if_pos hb] at h
        cases h
        exact ⟨h1, h2, h3⟩
      · rw [if_neg hb] at h
        cases h

theorem driver_step_counts {s t : Driver} {e : DriverEvent} (h : s.step e = some t) :
    t.accepted = s.accepted + (if e = DriverEvent.receive then 1 else 0)
    ∧ t.advances = s.advances + (if e = DriverEvent.advance then 1 else 0)
    ∧ t.acks = s.acks + (if e = DriverEvent.stderrLine false true then 1 else 0) := by
  unfold Driver.step at h
  by_cases hx : s.exit.isSome = true
  · rw [if_pos hx] at h
    cases h
  · rw [if_neg hx] at h
    cases e with
    | stderrLine noDevice prompt =>
      cases hst : s.status <;> simp only [hst] at h
      · by_cases hn : noDevice = true
        · rw [if_pos hn] at h
          cases h
          simp [hn]
        · rw [if_neg hn] at h
          by_cases hp : prompt = true
          · rw [if_pos hp] at h
            cases h
            simp [hn, hp]
          · rw [if_neg hp] at h
            cases h
            simp [hp]
      · cases h
    | stdoutLine name =>
      cases hr : s.results <;> simp only [hr] at h <;> cases h
      simp
    | receive =>
      cases hr : s.results <;> simp only [hr] at h <;> try cases h
      by_cases hi : 0 < s.idle
      · rw [if_pos hi] at h
        cases h
        simp
      · rw [if_neg hi] at h
        cases h
    | advance =>
      cases hr : s.results <;> cases hst : s.status <;> simp only [hr, hst] at h <;> cases h
      simp
    | workerBack =>
      by_cases hb : 0 < s.busy
      · rw [if_pos hb] at h
        cases h
        simp
      · rw [if_neg hb] at h
        cases h

theorem driver_run_consistent {es : List DriverEvent} {s t : Driver} (h : s.run es = some t)
    (hs : s.Consistent) : t.Consistent := by
  induction es generalizing s with
  | nil =>
    simp only [Driver.run, Option.some.injEq] at h
    exact h ▸ hs
  | cons e es ih =>
    simp only [Driver.run] at h
    cases hstep : s.step e with
    | none => simp [hstep] at h
    | some m =>
      simp only [hstep] at h
      exact ih h (driver_step_consistent hstep hs)

theorem driver_run_counts {es : List DriverEvent} {s t : Driver} (h : s.run es = some t) :
    t.accepted = s.accepted + es.count DriverEvent.receive
    ∧ t.advances = s.advances + es.count DriverEvent.advance
    ∧ t.acks = s.acks + es.count (DriverEvent.stderrLine false true) := by
  induction es generalizing s with
  | nil =>
    simp only [Driver.run, Option.some.injEq] at h
    subst h
    simp
  | cons e es ih =>
    simp only [Driver.run] at h
    cases hstep : s.step e with
    | none => simp [hstep] at h
    | some m =>
      simp only [hstep] at h
      obtain ⟨a1, a2, a3⟩ := ih h
      obtain ⟨b1, b2, b3⟩ := driver_step_counts hstep
      rw [a1, a2, a3, b1, b2, b3]
      simp only [List.count_cons, beq_iff_eq]
      refine ⟨?_, ?_, ?_⟩ <;> split_ifs <;> simp_all <;> omega

theorem driver_run_append {pre suf : List DriverEvent} {s t : Driver}
    (h : s.run (pre ++ suf) = some t) : ∃ m, s.run pre = some m ∧ m.run suf = some t := by
  induction pre generalizing s with
  | nil => exact ⟨s, rfl, h⟩
  | cons e es ih =>
    simp only [List.cons_append, Driver.run] at h ⊢
    cases hstep : s.step e with
    | none => simp [hstep] at h
    | some m =>
      simp only [hstep] at h ⊢
      exact ih h

theorem driver_init_consistent (convertCores : ℕ) : (Driver.init convertCores).Consistent := by
  simp [Driver.Consistent, Driver.init]

/-- C8. In every state the driver reaches from its start, whatever the scanner prints and
however the goroutines are scheduled: the workers have received at most one job more than values
have passed over `scannextpage`; the acknowledgements written to the scanner are at most the jobs
received by workers plus one; the store holds at most one page more than advances have happened;
and in every initial part of the run the number of completed submissions is at most the number
of completed advances plus one, so the results reader never submits two jobs without an advance
in between. -/
theorem single_in_flight_handshake (convertCores : ℕ) (events : List DriverEvent) (s : Driver)
    (h : (Driver.init convertCores).run events = some s) :
    s.accepted ≤ s.advances + 1
    ∧ s.acks ≤ s.accepted + 1
    ∧ s.acks ≤ s.advances + 1
    ∧ s.pages.length ≤ s.advances + 1
    ∧ s.accepted = events.count DriverEvent.receive
    ∧ s.advances = events.count DriverEvent.advance
    ∧ s.acks = events.count (DriverEvent.stderrLine false true)
    ∧ (∀ pre suf : List DriverEvent, events = pre ++ suf →
        pre.count DriverEvent.receive ≤ pre.count DriverEvent.advance + 1
        ∧ pre.count (DriverEvent.stderrLine false true) ≤ pre.count DriverEvent.receive + 1) := by
  have key : ∀ (es : List DriverEvent) (t : Driver),
      (Driver.init convertCores).run es = some t →
        t.accepted ≤ t.advances + 1 ∧ t.acks ≤ t.accepted + 1 ∧ t.acks ≤ t.advances + 1
        ∧ t.pages.length ≤ t.advances + 1
        ∧ t.accepted = es.count DriverEvent.receive
        ∧ t.advances = es.count DriverEvent.advance
        ∧ t.acks = es.count (DriverEvent.stderrLine false true) := by
    intro es t ht
    obtain ⟨c1, c2, c3⟩ := driver_run_consistent ht (driver_init_consistent convertCores)
    obtain ⟨n1, n2, n3⟩ := driver_run_counts ht
    simp only [Driver.init, Nat.zero_add] at n1 n2 n3
    refine ⟨?_, ?_, ?_, ?_, n1, n2, n3⟩
    · rw [c1]
      split_ifs <;> omega
    · rw [c2, c1]
      split_ifs <;> omega
    · rw [c2]
      split_ifs <;> omega
    · rw [c3, c1]
      split_ifs <;> simp_all
  obtain ⟨k1, k2, k3, k4, k5, k6, k7⟩ := key events s h
  refine ⟨k1, k2, k3, k4, k5, k6, k7, ?_⟩
  intro pre suf he
  subst he
  obtain ⟨m, hm, _⟩ := driver_run_append h
  obtain ⟨p1, p2, _, _, p5, p6, p7⟩ := key pre m hm
  rw [← p5, ← p6, ← p7]
  exact ⟨p1, p2⟩

/-- C8 on a run with one worker: prompt, acknowledgement, a page, its submission, the advance,
the next prompt and the next page. -/
theorem single_in_flight_handshake_witness :
    (Driver.init 1).run
        [DriverEvent.stderrLine false true, DriverEvent.stdoutLine "out1.pnm",
          DriverEvent.receive, DriverEvent.advance, DriverEvent.stderrLine false true,
          DriverEvent.stdoutLine "out2.pnm"]
      = some
          { status := StatusReader.awaitingAdvance, results := ResultsReader.submitting,
            pages := [{ PnmName := "out1.pnm", Keep := true },
              { PnmName := "out2.pnm", Keep := true }],
            idle := 0, busy := 1, acks := 2, accepted := 1, advances := 1, exit := none }
    ∧ (2 : ℕ) ≤ 1 + 1 :=
  have h : (Driver.init 1).run
        [DriverEvent.stderrLine false true, DriverEvent.stdoutLine "out1.pnm",
          DriverEvent.receive, DriverEvent.advance, DriverEvent.stderrLine false true,
          DriverEvent.stdoutLine "out2.pnm"]
      = some
          { status := StatusReader.awaitingAdvance, results := ResultsReader.submitting,
            pages := [{ PnmName := "out1.pnm", Keep := true },
              { PnmName := "out2.pnm", Keep := true }],
            idle := 0, busy := 1, acks := 2, accepted := 1, advances := 1, exit := none } := by
    decide
  ⟨h, (single_in_flight_handshake 1 _ _ h).2.1⟩

/-! ## Failures in the worker pool -/

theorem convertPage_exit (opened : Bool) (decoded : Option Image) (gmOk : Bool) (code : ExitCode)
    (h : (convertPage opened decoded gmOk).exit = some code) : code = ExitSystemError := by
  unfold convertPage at h
  cases opened
  · simp at h
    exact h.symm
  · cases decoded with
    | none =>
      simp at h
      exact h.symm
    | some img =>
      simp only [if_true] at h
      cases hc : countPixels img with
      | none => simp [hc] at h
      | some c =>
        simp only [hc] at h
        unfold decidePage at h
        cases hr : ratioAboveThreshold c <;> cases gmOk <;> simp [hr] at h
        exact h.symm

theorem convertPage_panicked (opened : Bool) (decoded : Option Image) (gmOk : Bool)
    (h : (convertPage opened decoded gmOk).exit ≠ none) :
    (convertPage opened decoded gmOk).panicked = false := by
  unfold convertPage at h ⊢
  cases opened
  · simp
  · cases decoded with
    | none => simp
    | some img =>
      simp only [if_true] at h ⊢
      cases hc : countPixels img with
      | none => simp [hc] at h
      | some c =>
        simp only [hc]
        unfold decidePage
        cases ratioAboveThreshold c <;> cases gmOk <;> simp

theorem pool_step_consistent {PdfName : page → String} {s t : Pool} {e : PoolEvent}
    (h : Pool.step PdfName s e = some t) (hs : s.Consistent) : t.Consistent := by
  obtain ⟨h1, h2, h3, h4, h5⟩ := hs
  unfold Pool.step at h
  by_cases hx : s.exit.isSome = true
  · rw [if_pos hx] at h
    cases h
  · rw [if_neg hx] at h
    have hnone : s.exit = none := by
      cases hh : s.exit with
      | none => rfl
      | some c => simp [hh] at hx
    cases e with
    | job name =>
      by_cases hc : s.closed = false ∧ 0 < s.idle
      · simp only [hc, and_self, if_true] at h
        cases h
        refine ⟨?_, h2, h3, h4, h5⟩
        simp only [List.length_cons]
        omega
      · simp only [hc, if_false] at h
        cases h
    | finish i opened decoded gmOk =>
      by_cases hip : i ∈ s.busy ∧ (convertPage opened decoded gmOk).panicked = false
      · simp only [hip, and_self, if_true] at h
        have hi : i ∈ s.busy := hip.1
        have hlen : (s.busy.erase i).length = s.busy.length - 1 := List.length_erase_of_mem hi
        have hpos : 0 < s.busy.length := List.length_pos_of_mem hi
        cases hex : (convertPage opened decoded gmOk).exit with
        | some code =>
          simp only [hex] at h
          cases h
          have hcode := convertPage_exit opened decoded gmOk code hex
          refine ⟨?_, ?_, h3, h4, h5⟩
          · simp only [List.length_cons, hlen]
            omega
          · intro c hcm
            rcases List.mem_cons.mp hcm with rfl | hcm
            · exact hcode
            · exact h2 c hcm
        | none =>
          simp only [hex] at h
          cases h
          refine ⟨?_, h2, h3, h4, h5⟩
          simp only [hlen]
          omega
      · simp only [hip, if_false] at h
        cases h
    | osExit =>
      cases hf : s.failed with
      | nil =>
        simp only [hf] at h
        cases h
      | cons code rest =>
        simp only [hf] at h
        cases h
        refine ⟨?_, ?_, h3, h4, ?_⟩
        · simpa [hf] using h1
        · simpa [hf] using h2
        · intro c hc
          simp only [Option.some.injEq] at hc
          subst hc
          exact Or.inl (h2 code (by simp [hf]))
    | close =>
      cases hm : s.main <;> simp only [hm] at h <;> cases h
      refine ⟨h1, h2, ?_, ?_, ?_⟩
      · intro hfin
        cases hfin
      · intro hmer
        have := h4 hmer
        rw [hm] at this
        cases this
      · intro c hc
        simp only [hnone] at hc
        cases hc
    | quit =>
      by_cases hc : s.closed = true ∧ 0 < s.idle
      · simp only [hc, and_self, if_true] at h
        cases h
        refine ⟨?_, h2, ?_, h4, h5⟩
        · simp only
          omega
        · intro hfin
          have := h3 hfin
          simp only
          omega
      · simp only [hc, if_false] at h
        cases h
    | finalize outputFilename pdfuniteOk rsync =>
      cases hm : s.main <;> simp only [hm] at h <;> try cases h
      by_cases hw : s.waitGroup = 0
      · simp only [hw, if_true] at h
        cases h
        refine ⟨?_, h2, ?_, ?_, ?_⟩
        · simpa [hw] using h1
        · intro _
          rfl
        · intro _
          rfl
        · intro c _
          exact Or.inr rfl
      · simp only [hw, if_false] at h
        cases h

theorem pool_step_failed {PdfName : page → String} {s t : Pool} {e : PoolEvent}
    (h : Pool.step PdfName s e = some t) (hf : s.failed ≠ []) : t.failed ≠ [] := by
  unfold Pool.step at h
  by_cases hx : s.exit.isSome = true
  · rw [if_pos hx] at h
    cases h
  · rw [if_neg hx] at h
    cases e with
    | job name =>
      by_cases hc : s.closed = false ∧ 0 < s.idle
      · simp only [hc, and_self, if_true] at h
        cases h
        exact hf
      · simp only [hc, if_false] at h
        cases h
    | finish i opened decoded gmOk =>
      by_cases hip : i ∈ s.busy ∧ (convertPage opened decoded gmOk).panicked = false
      · simp only [hip, and_self, if_true] at h
        cases hex : (convertPage opened decoded gmOk).exit with
        | some code =>
          simp only [hex] at h
          cases h
          simp
        | none =>
          simp only [hex] at h
          cases h
          exact hf
      · simp only [hip, if_false] at h
        cases h
    | osExit =>
      cases hfl : s.failed with
      | nil => exact absurd hfl hf
      | cons code rest =>
        simp only [hfl] at h
        cases h
        simp [hfl]
    | close =>
      cases hm : s.main <;> simp only [hm] at h <;> cases h
      exact hf
    | quit =>
      by_cases hc : s.closed = true ∧ 0 < s.idle
      · simp only [hc, and_self, if_true] at h
        cases h
        exact hf
      · simp only [hc, if_false] at h
        cases h
    | finalize outputFilename pdfuniteOk rsync =>
      cases hm : s.main <;> simp only [hm] at h <;> try cases h
      by_cases hw : s.waitGroup = 0
      · simp only [hw, if_true] at h
        cases h
        exact hf
      · simp only [hw, if_false] at h
        cases h

theorem pool_run_consistent {PdfName : page → String} {es : List PoolEvent} {s t : Pool}
    (h : Pool.run PdfName s es = some t) (hs : s.Consistent) : t.Consistent := by
  induction es generalizing s with
  | nil =>
    simp only [Pool.run, Option.some.injEq] at h
    exact h ▸ hs
  | cons e es ih =>
    simp only [Pool.run] at h
    cases hstep : Pool.step PdfName s e with
    | none => simp [hstep] at h
    | some m =>
      simp only [hstep] at h
      exact ih h (pool_step_consistent hstep hs)

theorem pool_run_failed {PdfName : page → String} {es : List PoolEvent} {s t : Pool}
    (h : Pool.run PdfName s es = some t) (hf : s.failed ≠ []) : t.failed ≠ [] := by
  induction es generalizing s with
  | nil =>
    simp only [Pool.run, Option.some.injEq] at h
    exact h ▸ hf
  | cons e es ih =>
    simp only [Pool.run] at h
    cases hstep : Pool.step PdfName s e with
    | none => simp [hstep] at h
    | some m =>
      simp only [hstep] at h
      exact ih h (pool_step_failed hstep hf)

theorem pool_init_consistent (convertCores : ℕ) : (Pool.init convertCores).Consistent := by
  simp [Pool.Consistent, Pool.init]

theorem pool_failed_blocks {s : Pool} (hs : s.Consistent) (hf : s.failed ≠ []) :
    1 ≤ s.waitGroup ∧ s.main ≠ MainFlow.finished ∧ s.merged = false
      ∧ (s.exit = none ∨ s.exit = some ExitSystemError) := by
  obtain ⟨h1, h2, h3, h4, h5⟩ := hs
  have hlen : 0 < s.failed.length := List.length_pos.mpr hf
  have hw : 1 ≤ s.waitGroup := by omega
  have hm : s.main ≠ MainFlow.finished := by
    intro hfin
    have := h3 hfin
    omega
  refine ⟨hw, hm, ?_, ?_⟩
  · cases hmer : s.merged with
    | false => rfl
    | true => exact absurd (h4 hmer) hm
  · cases hex : s.exit with
    | none => exact Or.inl rfl
    | some c =>
      rcases h5 c hex with hc | hc
      · exact Or.inr (by rw [hc])
      · exact absurd hc hm

/-- C9. A failure of `os.Open`, of `image.Decode` or of the compressor makes the worker call
`cleanExit` with `ExitSystemError`. In every state the pool reaches from its start, the worker
of such a page becomes a failed worker without calling `Done()`; and as long as there is a
failed worker, in this state and in every later one, the counter of the wait group is at least 1,
the main flow cannot pass `convertWorkers.Wait()`, `pdfunite` has not been started, the
process has either not ended yet or ended with `ExitSystemError`, and while it has not ended
the `os.Exit` of the failed worker can happen and ends it with `ExitSystemError`. -/
theorem pipeline_failure_is_fatal (PdfName : page → String) (convertCores : ℕ)
    (events : List PoolEvent) (s : Pool)
    (h : Pool.run PdfName (Pool.init convertCores) events = some s) :
    (∀ decoded gmOk, (convertPage false decoded gmOk).exit = some ExitSystemError
        ∧ (convertPage false decoded gmOk).gmCalled = false)
    ∧ (∀ gmOk, (convertPage true none gmOk).exit = some ExitSystemError
        ∧ (convertPage true none gmOk).gmCalled = false)
    ∧ (∀ img c, countPixels img = some c → ratioAboveThreshold c = true →
        (convertPage true (some img) false).exit = some ExitSystemError)
    ∧ (∀ i opened decoded gmOk, i ∈ s.busy → s.exit = none →
        (convertPage opened decoded gmOk).exit ≠ none →
        ∃ t, Pool.step PdfName s (PoolEvent.finish i opened decoded gmOk) = some t
          ∧ t.failed = ExitSystemError :: s.failed ∧ t.waitGroup = s.waitGroup
          ∧ t.pages = s.pages)
    ∧ (∀ (later : List PoolEvent) (t : Pool), s.failed ≠ [] →
        Pool.run PdfName s later = some t →
        t.failed ≠ [] ∧ 1 ≤ t.waitGroup ∧ t.main ≠ MainFlow.finished ∧ t.merged = false
        ∧ (t.exit = none ∨ t.exit = some ExitSystemError)
        ∧ (∀ outputFilename pdfuniteOk rsync,
            Pool.step PdfName t (PoolEvent.finalize outputFilename pdfuniteOk rsync) = none)
        ∧ (t.exit = none →
            ∃ u, Pool.step PdfName t PoolEvent.osExit = some u
              ∧ u.exit = some ExitSystemError ∧ u.merged = false)) := by
  have hs : s.Consistent := pool_run_consistent h (pool_init_consistent convertCores)
  refine ⟨?_, ?_, ?_, ?_, ?_⟩
  · intro decoded gmOk
    unfold convertPage
    simp
  · intro gmOk
    unfold convertPage
    simp
  · intro img c hc hr
    unfold convertPage
    rw [if_pos rfl]
    simp only [hc]
    simp [decidePage, hr]
  · intro i opened decoded gmOk hi hex hfail
    cases hc : (convertPage opened decoded gmOk).exit with
    | none => exact absurd hc hfail
    | some code =>
      have hcode := convertPage_exit opened decoded gmOk code hc
      subst hcode
      refine ⟨{ s with busy := s.busy.erase i, failed := ExitSystemError :: s.failed }, ?_,
        rfl, rfl, rfl⟩
      have hp := convertPage_panicked opened decoded gmOk hfail
      simp [Pool.step, hex, hi, hc, hp]
  · intro later t hf ht
    have htc : t.Consistent := pool_run_consistent ht hs
    have htf : t.failed ≠ [] := pool_run_failed ht hf
    obtain ⟨b1, b2, b3, b4⟩ := pool_failed_blocks htc htf
    refine ⟨htf, b1, b2, b3, b4, ?_, ?_⟩
    · intro outputFilename pdfuniteOk rsync
      unfold Pool.step
      by_cases hx : t.exit.isSome = true
      · rw [if_pos hx]
      · rw [if_neg hx]
        cases hm : t.main with
        | waitScanimage => rfl
        | waitWorkers =>
          have hw : ¬ t.waitGroup = 0 := by omega
          simp [hw]
        | finished => exact absurd hm b2
    · intro hex
      cases hfl : t.failed with
      | nil => exact absurd hfl htf
      | cons code rest =>
        have hcode : code = ExitSystemError := htc.2.1 code (by simp [hfl])
        subst hcode
        refine ⟨{ t with exit := some ExitSystemError }, ?_, rfl, b3⟩
        simp [Pool.step, hex, hfl]

/-- C9 on a run with two workers: the first page is converted, the second cannot be opened. -/
theorem pipeline_failure_is_fatal_witness :
    Pool.run (fun p => p.PnmName ++ ".pdf") (Pool.init 2)
        [PoolEvent.job "out1.pnm", PoolEvent.job "out2.pnm",
          PoolEvent.finish 1 false none false]
      = some
          { idle := 0, busy := [0], failed := [ExitSystemError], waitGroup := 2,
            pages := [{ PnmName := "out1.pnm", Keep := true },
              { PnmName := "out2.pnm", Keep := true }],
            closed := false, main := MainFlow.waitScanimage, merged := false, exit := none }
    ∧ (convertPage false none false).exit = some ExitSystemError
    ∧ ({ idle := 0, busy := [0], failed := [ExitSystemError], waitGroup := 2,
         pages := [{ PnmName := "out1.pnm", Keep := true },
           { PnmName := "out2.pnm", Keep := true }],
         closed := false, main := MainFlow.waitScanimage, merged := false,
         exit := none } : Pool).merged = false :=
  have h : Pool.run (fun p => p.PnmName ++ ".pdf") (Pool.init 2)
        [PoolEvent.job "out1.pnm", PoolEvent.job "out2.pnm",
          PoolEvent.finish 1 false none false]
      = some
          { idle := 0, busy := [0], failed := [ExitSystemError], waitGroup := 2,
            pages := [{ PnmName := "out1.pnm", Keep := true },
              { PnmName := "out2.pnm", Keep := true }],
            closed := false, main := MainFlow.waitScanimage, merged := false, exit := none } := by
    have e : convertPage false none false
        = { gmCalled := false, Keep := true, exit := some ExitSystemError, panicked := false } := by
      unfold convertPage
      simp
    simp [Pool.run, Pool.step, Pool.init, e]
  ⟨h, ((pipeline_failure_is_fatal (fun p => p.PnmName ++ ".pdf") 2 _ _ h).1 none false).1,
    ((pipeline_failure_is_fatal (fun p => p.PnmName ++ ".pdf") 2 _ _ h).2.2.2.2 [] _
      (by simp) rfl).2.2.2.1⟩

end Goscanpdf
